import Mathlib

/-!
Shallow embedding of the merkle package (merkle.go): a simple, in-memory,
hash-function-agnostic merkle tree. Byte slices are modelled as lists of
naturals, the pluggable hash primitive as an arbitrary function
H : GoBytes -> GoBytes passed to every operation, and Go panics
(out-of-range indexing, negative allocation sizes) as the value none of an
Option-typed result.
-/

/-- Byte slices of Go are modelled as lists of naturals. -/
abbrev GoBytes := List Nat

/-- Models bytes.Compare: lexicographic three-way comparison of byte slices,
returning -1, 0 or 1. -/
def bytesCompare : GoBytes → GoBytes → Int
  | [], [] => 0
  | [], _ :: _ => -1
  | _ :: _, [] => 1
  | a :: as, b :: bs => if a < b then -1 else if b < a then 1 else bytesCompare as bs

/-- The two error values of the package, ErrHashUnavailable and ErrNoData. -/
inductive MerkleErr where
  | hashUnavailable
  | noData
deriving DecidableEq

/-- Models the struct treeLeaf: cached digest, serialized datum, and the
position at which the item was originally supplied. -/
structure treeLeaf where
  digest : GoBytes
  datum : GoBytes
  orderedID : Nat
deriving DecidableEq

/-- Models the struct Tree. The Go struct also stores the crypto.Hash
selector, used only to re-instantiate the same hash function on later
operations; here that hash function H is passed explicitly instead. -/
structure MerkleTree where
  mns : List (List GoBytes)
  tls : List treeLeaf
deriving DecidableEq

/-- The order underlying the sort.Slice calls that sort leaves by serialized
datum (Go less function: bytesCompare of the datum fields is -1). Go's
unstable sort guarantees exactly a permutation that is pairwise ordered by
this reflexive closure; ties between equal datum values may come out in any
order there, and the insertion sort below fixes one such order. -/
def leafDatumLe (a b : treeLeaf) : Prop := bytesCompare a.datum b.datum ≤ 0

instance : DecidableRel leafDatumLe := fun _ _ => Int.decLe _ _

/-- The order underlying the sort.Slice calls that sort leaves by orderedID
(Go less function: orderedID is smaller), used by Leaves and
deleteTreeLeaves. -/
def leafIDLe (a b : treeLeaf) : Prop := a.orderedID ≤ b.orderedID

instance : DecidableRel leafIDLe := fun _ _ => Nat.decLe _ _

/-- Models the sort.Slice calls sorting leaves by serialized datum. -/
def sortLeavesByDatum (tls : List treeLeaf) : List treeLeaf :=
  List.insertionSort leafDatumLe tls

/-- Models the sort.Slice calls sorting leaves by orderedID. -/
def sortLeavesByID (tls : List treeLeaf) : List treeLeaf :=
  List.insertionSort leafIDLe tls

/-- The leaf-creation loop of appendTreeLeaves: each new datum is hashed and
wrapped into a leaf whose orderedID continues sequentially from base, the
number of pre-existing leaves. -/
def makeLeaves (H : GoBytes → GoBytes) (base : Nat) : List GoBytes → List treeLeaf
  | [] => []
  | d :: ds => { digest := H d, datum := d, orderedID := base } :: makeLeaves H (base + 1) ds

/-- Models appendTreeLeaves: copy the old leaves, append one new leaf per
datum with sequential orderedIDs, and sort the result by datum. A Datum is
consumed only through its Serialize method, so items are modelled directly
by their serialized bytes. -/
def appendTreeLeaves (H : GoBytes → GoBytes) (old : List treeLeaf) (newData : List GoBytes) : List treeLeaf :=
  sortLeavesByDatum (old ++ makeLeaves H old.length newData)

/-- The sort.Search loop with explicit fuel. Go narrows the interval with
h := (i+j)/2 and moves i past h when f h fails, j onto h when it holds; the
interval shrinks strictly every iteration, so any fuel exceeding the initial
interval length makes the fuel-exhaustion case unreachable. -/
def sortSearchAux (f : Nat → Bool) : Nat → Nat → Nat → Nat
  | 0, i, _ => i
  | fuel + 1, i, j =>
    if i < j then
      if f ((i + j) / 2) then sortSearchAux f fuel i ((i + j) / 2)
      else sortSearchAux f fuel ((i + j) / 2 + 1) j
    else i

/-- Models sort.Search(n, f). -/
def sortSearch (n : Nat) (f : Nat → Bool) : Nat := sortSearchAux f (n + 1) 0 n

/-- Image of Go's zero-valued treeLeaf, the default for getD reads. -/
def zeroLeaf : treeLeaf := { digest := [], datum := [], orderedID := 0 }

/-- One iteration of the removal loop of deleteTreeLeaves: binary search
the current leaf slice for the datum and, when the found position is an
exact match, remove that leaf (the append of the two surrounding
sub-slices); a datum not found leaves the slice unchanged. -/
def removeOneLeaf (tls : List treeLeaf) (d : GoBytes) : List treeLeaf :=
  let j := sortSearch tls.length fun k => decide (0 ≤ bytesCompare (tls.getD k zeroLeaf).datum d)
  if j < tls.length ∧ bytesCompare (tls.getD j zeroLeaf).datum d = 0 then tls.eraseIdx j else tls

/-- The removal loop of deleteTreeLeaves over all data to delete. -/
def removeFoundLeaves : List treeLeaf → List GoBytes → List treeLeaf
  | tls, [] => tls
  | tls, d :: ds => removeFoundLeaves (removeOneLeaf tls d) ds

/-- The renumbering loop of deleteTreeLeaves: the leaf at position i of the
orderedID-sorted slice receives orderedID i. -/
def renumberLeaves (tls : List treeLeaf) : List treeLeaf :=
  (List.range tls.length).zipWith (fun i l => { l with orderedID := i }) tls

/-- Models deleteTreeLeaves. After removing the data that were found, Go
sorts the remaining leaves by orderedID, renumbers them contiguously from 0,
allocates a slice of length len(old) - len(del) -- panicking (none) when
that is negative -- copies the remaining leaves into it (which truncates,
or leaves zero-valued leaves, whenever the removal loop skipped missing
items) and finally re-sorts by datum. -/
def deleteTreeLeaves (old : List treeLeaf) (del : List GoBytes) : Option (List treeLeaf) :=
  if old.length < del.length then none
  else
    let remaining := renumberLeaves (sortLeavesByID (removeFoundLeaves old del))
    let k := old.length - del.length
    some (sortLeavesByDatum (remaining.take k ++ List.replicate (k - remaining.length) zeroLeaf))

/-- The next-level node count of calculateMerkleNumbers: half the current
count, rounded up when odd (the leftover node is carried upward alone, not
duplicated). -/
def nextRowCount (n : Nat) : Nat := if n % 2 = 1 then n / 2 + 1 else n / 2

/-- The loop of calculateMerkleNumbers with explicit fuel; the count
strictly decreases while above 1, so fuel n suffices for initial count n. -/
def merkleRowCountsAux : Nat → Nat → List Nat
  | 0, _ => []
  | fuel + 1, n => if 1 < n then nextRowCount n :: merkleRowCountsAux fuel (nextRowCount n) else []

/-- The per-level node counts computed by calculateMerkleNumbers, ordered
from the leaf-adjacent level up to the root level (whose count is 1); empty
for 0 or 1 leaves. -/
def merkleRowCounts (n : Nat) : List Nat := merkleRowCountsAux n n

/-- Models calculateMerkleNumbers: the total merkle node count and the
per-level counts. -/
def calculateMerkleNumbers (numLeaves : Nat) : Nat × List Nat :=
  ((merkleRowCounts numLeaves).sum, merkleRowCounts numLeaves)

/-- One node row of constructMerkleNodes: node j hashes child 2j followed by
child 2j+1 when the latter exists (nothing is written for a missing right
child, which the concatenation with the empty out-of-range getD default
reproduces, so the odd leftover child is hashed alone). -/
def hashRow (H : GoBytes → GoBytes) (children : List GoBytes) (size : Nat) : List GoBytes :=
  (List.range size).map fun j => H (children.getD (2 * j) [] ++ children.getD (2 * j + 1) [])

/-- The rows built by constructMerkleNodes, listed from the leaf-adjacent
row upward: the first row hashes the leaf digests pairwise, every further
row hashes the row below it pairwise, following the planned sizes. -/
def rowsUp (H : GoBytes → GoBytes) (children : List GoBytes) : List Nat → List (List GoBytes)
  | [] => []
  | s :: rest => hashRow H children s :: rowsUp H (hashRow H children s) rest

/-- Models constructMerkleNodes: mns lists the node rows with the root row
first (mns[0][0] is the root) and the leaf-adjacent row last, the reverse of
the bottom-up construction order; row i holds rowSizes[len(rowSizes)-1-i]
nodes. -/
def constructMerkleNodes (H : GoBytes → GoBytes) (tls : List treeLeaf) : List (List GoBytes) :=
  (rowsUp H (tls.map treeLeaf.digest) (merkleRowCounts tls.length)).reverse

/-- Models NewTree: hash availability is checked first, then emptiness; the
leaves are created and sorted by appendTreeLeaves starting from no leaves
and the merkle nodes are constructed above them. -/
def NewTree (avail : Bool) (H : GoBytes → GoBytes) (data : List GoBytes) : Except MerkleErr MerkleTree :=
  if !avail then .error .hashUnavailable
  else if data.length = 0 then .error .noData
  else
    let tls := appendTreeLeaves H [] data
    .ok { mns := constructMerkleNodes H tls, tls := tls }

/-- Models Tree.MerkleRoot, the digest mns[0][0]; none models the index
panic on a tree without merkle node rows. -/
def MerkleTree.MerkleRoot (t : MerkleTree) : Option GoBytes :=
  (t.mns[0]?).bind fun row => row[0]?

/-- Models Tree.NumLeaves. -/
def MerkleTree.NumLeaves (t : MerkleTree) : Nat := t.tls.length

/-- Models Tree.Height. -/
def MerkleTree.Height (t : MerkleTree) : Nat := t.mns.length + 1

/-- Models Tree.MerkleSize. -/
def MerkleTree.MerkleSize (t : MerkleTree) : Nat := (t.mns.map List.length).sum

/-- Models Tree.Size. -/
def MerkleTree.Size (t : MerkleTree) : Nat := t.MerkleSize + t.NumLeaves

/-- Models Tree.AppendAndReconstruct: a no-op on empty input, otherwise the
new leaves are merged and sorted and the merkle nodes fully reconstructed. -/
def MerkleTree.AppendAndReconstruct (t : MerkleTree) (H : GoBytes → GoBytes) (data : List GoBytes) : MerkleTree :=
  if data.length = 0 then t
  else
    let tls := appendTreeLeaves H t.tls data
    { mns := constructMerkleNodes H tls, tls := tls }

/-- Models Tree.DeleteAndReconstruct: a no-op on empty input, otherwise the
found leaves are removed by deleteTreeLeaves (none models its panic) and the
merkle nodes are fully reconstructed on the remaining leaves. -/
def MerkleTree.DeleteAndReconstruct (t : MerkleTree) (H : GoBytes → GoBytes) (data : List GoBytes) : Option MerkleTree :=
  if data.length = 0 then some t
  else
    (deleteTreeLeaves t.tls data).map fun tls =>
      { mns := constructMerkleNodes H tls, tls := tls }

/-- One step of the path walk in MerkleTree.verify: from the current digest at
position idx of the row whose digests sibRow holds, pick the sibling (an
even current node is the left operand and takes the node after it when that
exists, an empty digest otherwise; an odd current node is the right operand
of the node before it), hash the pair in left-then-right order and compare
with the stored parent digest; none models the index panics. The returned
triple is the comparison outcome, the parent index and the stored parent
digest. -/
def climbStep (H : GoBytes → GoBytes) (sibRow parentRow : List GoBytes) (idx : Nat) (cur : GoBytes) : Option (Bool × Nat × GoBytes) :=
  if idx % 2 = 0 then
    let sib := if idx < sibRow.length - 1 then sibRow.getD (idx + 1) [] else []
    match parentRow[idx / 2]? with
    | some pd => some (decide (pd = H (cur ++ sib)), idx / 2, pd)
    | none => none
  else
    match sibRow[idx - 1]? with
    | some sib =>
      match parentRow[(idx - 1) / 2]? with
      | some pd => some (decide (pd = H (sib ++ cur)), (idx - 1) / 2, pd)
      | none => none
    | none => none

/-- The level-climbing loop of MerkleTree.verify: rows holds the remaining parent
rows from the leaf-adjacent row upward, while sibRow holds the digests of
the row the current node lives on; a digest mismatch stops with false, a
panic with none, and passing the root row yields true. -/
def climb (H : GoBytes → GoBytes) (sibRow : List GoBytes) (rows : List (List GoBytes)) (idx : Nat) (cur : GoBytes) : Option Bool :=
  match rows with
  | [] => some true
  | parentRow :: rest =>
    match climbStep H sibRow parentRow idx cur with
    | none => none
    | some (ok, pIdx, pd) => if ok then climb H parentRow rest pIdx pd else some false

/-- Models the unexported Tree.verify: the digest of the leaf at the given
index is recomputed from its stored datum (the stored digest field of that
leaf is never read), then the path to the root is walked, at each level
hashing the current and sibling digests in left-then-right order and
comparing with the stored parent digest. Go reads tls[currentIndex] and then
mns[len(mns)-1] unconditionally, so none models the panic on an out-of-range
leaf index or on a tree without merkle node rows. -/
def MerkleTree.verify (t : MerkleTree) (H : GoBytes → GoBytes) (currentIndex : Nat) : Option (Bool × Option MerkleErr) :=
  match t.tls[currentIndex]? with
  | none => none
  | some leaf =>
    match t.mns.reverse with
    | [] => none
    | r0 :: rest =>
      (climb H (t.tls.map treeLeaf.digest) (r0 :: rest) currentIndex (H leaf.datum)).map fun b => (b, none)

/-- The linear scan of MerkleTree.VerifyDigest: the index of the first leaf whose
datum field compares equal to the argument (the digest fields are never
inspected by the scan). -/
def scanDatum (b : GoBytes) : List treeLeaf → Option Nat
  | [] => none
  | l :: ls => if bytesCompare b l.datum = 0 then some 0 else (scanDatum b ls).map (· + 1)

/-- Models Tree.VerifyDigest: scan the leaves in order for one whose datum
equals the argument and verify its path; (false, ErrNoData) when none does. -/
def MerkleTree.VerifyDigest (t : MerkleTree) (H : GoBytes → GoBytes) (digest : GoBytes) : Option (Bool × Option MerkleErr) :=
  match scanDatum digest t.tls with
  | some i => t.verify H i
  | none => some (false, some .noData)

/-- Models Tree.VerifySerializedDatum: binary-search the sorted leaves for
the first datum not lexicographically below the argument, verify its path
when it is an exact match, and return (false, ErrNoData) otherwise. -/
def MerkleTree.VerifySerializedDatum (t : MerkleTree) (H : GoBytes → GoBytes) (serializedDatum : GoBytes) : Option (Bool × Option MerkleErr) :=
  let leafIndex := sortSearch t.tls.length fun k => decide (0 ≤ bytesCompare (t.tls.getD k zeroLeaf).datum serializedDatum)
  if leafIndex < t.tls.length ∧ bytesCompare (t.tls.getD leafIndex zeroLeaf).datum serializedDatum = 0 then
    t.verify H leafIndex
  else some (false, some .noData)

/-- Models Tree.VerifyDatum on a non-nil datum: a Datum is consumed only
through its Serialize method, so it is modelled by its serialized bytes and
VerifyDatum coincides with VerifySerializedDatum (the nil-datum fast path
cannot arise for a value already given as bytes). -/
def MerkleTree.VerifyDatum (t : MerkleTree) (H : GoBytes → GoBytes) (datum : GoBytes) : Option (Bool × Option MerkleErr) :=
  t.VerifySerializedDatum H datum

/-- Models Tree.Leaves: a copy of the leaves sorted back into orderedID
order, listing the stored serialized data (the shared backing buffer Go
slices the returned values out of is a layout detail with no semantic
content). -/
def MerkleTree.Leaves (t : MerkleTree) : List GoBytes :=
  (sortLeavesByID t.tls).map treeLeaf.datum

/-- Replace the stored digest field of leaf i, keeping its datum: the
corruption considered by the spec's tamper test. -/
def corruptLeafDigest (t : MerkleTree) (i : Nat) (d : GoBytes) : MerkleTree :=
  { t with tls := t.tls.set i { t.tls.getD i zeroLeaf with digest := d } }

/-- Replace the stored digest of merkle node mns[g][j] (row g counted from
the root row): the internal-node corruption of the spec's tamper test. -/
def corruptMerkleNode (t : MerkleTree) (g j : Nat) (d : GoBytes) : MerkleTree :=
  { t with mns := t.mns.set g ((t.mns.getD g []).set j d) }

/-- Comparing with the empty byte slice on the left never yields 1. -/
theorem bytesCompare_nil_le (b : GoBytes) : bytesCompare [] b ≤ 0 := by
  cases b <;> simp [bytesCompare]

/-- bytes.Compare returns 0 exactly on equal byte slices. -/
theorem bytesCompare_eq_zero_iff : ∀ (a b : GoBytes), bytesCompare a b = 0 ↔ a = b := by
  intro a
  induction a with
  | nil => intro b; cases b <;> simp [bytesCompare]
  | cons x xs ih =>
    intro b
    cases b with
    | nil => simp [bytesCompare]
    | cons y ys =>
      simp only [bytesCompare]
      rcases Nat.lt_trichotomy x y with h | h | h
      · rw [if_pos h]
        constructor
        · intro hc; exact absurd hc (by decide)
        · intro hc; injection hc with h1 h2; omega
      · subst h
        rw [if_neg (lt_irrefl x), if_neg (lt_irrefl x)]
        constructor
        · intro hc; rw [(ih ys).mp hc]
        · intro hc; injection hc with h1 h2; exact (ih ys).mpr h2
      · rw [if_neg (by omega), if_pos h]
        constructor
        · intro hc; exact absurd hc (by decide)
        · intro hc; injection hc with h1 h2; omega

/-- bytes.Compare is antisymmetric as a three-way comparison: swapping the
arguments negates the result. -/
theorem bytesCompare_neg : ∀ (a b : GoBytes), bytesCompare b a = - bytesCompare a b := by
  intro a
  induction a with
  | nil => intro b; cases b <;> simp [bytesCompare]
  | cons x xs ih =>
    intro b
    cases b with
    | nil => simp [bytesCompare]
    | cons y ys =>
      simp only [bytesCompare]
      rcases Nat.lt_trichotomy x y with h | h | h
      · have h' : ¬ y < x := by omega
        simp [h, h']
      · subst h
        simp [ih ys]
      · have h' : ¬ x < y := by omega
        simp [h, h']

/-- A non-positive comparison of two nonempty slices means the heads are
strictly ordered or equal with non-positively compared tails. -/
theorem bytesCompare_cons_le {x y : Nat} {xs ys : GoBytes}
    (h : bytesCompare (x :: xs) (y :: ys) ≤ 0) :
    x < y ∨ (x = y ∧ bytesCompare xs ys ≤ 0) := by
  simp only [bytesCompare] at h
  by_cases hxy : x < y
  · exact Or.inl hxy
  · by_cases hyx : y < x
    · rw [if_neg hxy, if_pos hyx] at h; omega
    · exact Or.inr ⟨by omega, by rwa [if_neg hxy, if_neg hyx] at h⟩

/-- The non-strict lexicographic order induced by bytes.Compare is
transitive. -/
theorem bytesCompare_le_trans : ∀ (a b c : GoBytes),
    bytesCompare a b ≤ 0 → bytesCompare b c ≤ 0 → bytesCompare a c ≤ 0 := by
  intro a
  induction a with
  | nil => intro b c _ _; exact bytesCompare_nil_le c
  | cons x xs ih =>
    intro b c h1 h2
    cases b with
    | nil => simp [bytesCompare] at h1
    | cons y ys =>
      cases c with
      | nil => simp [bytesCompare] at h2
      | cons z zs =>
        rcases bytesCompare_cons_le h1 with hxy | ⟨hxy, h1'⟩ <;>
          rcases bytesCompare_cons_le h2 with hyz | ⟨hyz, h2'⟩ <;>
          simp only [bytesCompare]
        · rw [if_pos (by omega)]; decide
        · rw [if_pos (by omega)]; decide
        · rw [if_pos (by omega)]; decide
        · rw [if_neg (by omega : ¬ x < z), if_neg (by omega : ¬ z < x)]
          subst hxy; subst hyz
          exact ih ys zs h1' h2'

/-- The non-strict lexicographic order induced by bytes.Compare is
antisymmetric. -/
theorem bytesCompare_antisymm {a b : GoBytes}
    (h1 : bytesCompare a b ≤ 0) (h2 : bytesCompare b a ≤ 0) : a = b := by
  rw [bytesCompare_neg] at h2
  exact (bytesCompare_eq_zero_iff a b).mp (by omega)

/-- The non-strict lexicographic order induced by bytes.Compare is total. -/
theorem bytesCompare_le_total (a b : GoBytes) : bytesCompare a b ≤ 0 ∨ bytesCompare b a ≤ 0 := by
  rw [bytesCompare_neg a b]; omega

/-- The lexicographic below-or-equal relation on byte slices, the order the
sorted leaf array realizes on its datum fields. -/
def bytesLe (a b : GoBytes) : Prop := bytesCompare a b ≤ 0

instance : DecidableRel bytesLe := fun _ _ => Int.decLe _ _
instance : IsTotal GoBytes bytesLe := ⟨bytesCompare_le_total⟩
instance : IsTrans GoBytes bytesLe := ⟨fun _ _ _ => bytesCompare_le_trans _ _ _⟩
instance : IsAntisymm GoBytes bytesLe := ⟨fun _ _ => bytesCompare_antisymm⟩

instance : IsTotal treeLeaf leafDatumLe := ⟨fun a b => bytesCompare_le_total a.datum b.datum⟩
instance : IsTrans treeLeaf leafDatumLe := ⟨fun _ _ _ h1 h2 => bytesCompare_le_trans _ _ _ h1 h2⟩
instance : IsTotal treeLeaf leafIDLe := ⟨fun a b => Nat.le_total a.orderedID b.orderedID⟩
instance : IsTrans treeLeaf leafIDLe := ⟨fun _ _ _ h1 h2 => Nat.le_trans h1 h2⟩

/-- Sorting leaves by datum permutes them. -/
theorem sortLeavesByDatum_perm (tls : List treeLeaf) : (sortLeavesByDatum tls).Perm tls :=
  List.perm_insertionSort _ _

/-- Sorting leaves by datum sorts them by datum. -/
theorem sortLeavesByDatum_sorted (tls : List treeLeaf) :
    List.Sorted leafDatumLe (sortLeavesByDatum tls) :=
  List.sorted_insertionSort _ _

/-- Sorting leaves by orderedID permutes them. -/
theorem sortLeavesByID_perm (tls : List treeLeaf) : (sortLeavesByID tls).Perm tls :=
  List.perm_insertionSort _ _

/-- Sorting leaves by orderedID sorts them by orderedID. -/
theorem sortLeavesByID_sorted (tls : List treeLeaf) :
    List.Sorted leafIDLe (sortLeavesByID tls) :=
  List.sorted_insertionSort _ _

/-- Reading a list at an in-range position with a default reads the element
there. -/
theorem getD_eq_get {α : Type} (l : List α) (d : α) (i : Nat) (h : i < l.length) :
    l.getD i d = l.get ⟨i, h⟩ := by
  simp [List.getD_eq_getElem?_getD, List.getElem?_eq_getElem h]

/-- The sort.Search loop, given enough fuel and a predicate monotone below
n, narrows onto the boundary of the predicate: everything below the result
fails and everything from the result up to n holds. -/
theorem sortSearchAux_spec (f : Nat → Bool) (n : Nat)
    (mono : ∀ a b, a ≤ b → b < n → f a = true → f b = true) :
    ∀ fuel i j, j - i < fuel → i ≤ j → j ≤ n →
      (∀ k, k < i → f k = false) → (∀ k, j ≤ k → k < n → f k = true) →
      (∀ k, k < sortSearchAux f fuel i j → f k = false) ∧
      (∀ k, sortSearchAux f fuel i j ≤ k → k < n → f k = true) ∧
      i ≤ sortSearchAux f fuel i j ∧ sortSearchAux f fuel i j ≤ j := by
  intro fuel
  induction fuel with
  | zero => intro i j h; omega
  | succ fuel ih =>
    intro i j hfuel hij hjn hlo hhi
    simp only [sortSearchAux]
    by_cases hlt : i < j
    · rw [if_pos hlt]
      cases hf : f ((i + j) / 2) with
      | true =>
        rw [if_pos rfl]
        have hhi2 : ∀ k, (i + j) / 2 ≤ k → k < n → f k = true := by
          intro k hk1 hk2
          exact mono _ _ hk1 hk2 hf
        have h := ih i ((i + j) / 2) (by omega) (by omega) (by omega) hlo hhi2
        exact ⟨h.1, h.2.1, h.2.2.1, by omega⟩
      | false =>
        rw [if_neg (by decide)]
        have hlo2 : ∀ k, k < (i + j) / 2 + 1 → f k = false := by
          intro k hk
          by_cases hki : k < i
          · exact hlo k hki
          · cases hfk : f k with
            | false => rfl
            | true =>
              have hmono := mono k ((i + j) / 2) (by omega) (by omega) hfk
              rw [hmono] at hf
              cases hf
        have h := ih ((i + j) / 2 + 1) j (by omega) (by omega) hjn hlo2 hhi
        exact ⟨h.1, h.2.1, by omega, h.2.2.2⟩
    · rw [if_neg hlt]
      have hji : i = j := by omega
      exact ⟨hlo, by intro k hk1 hk2; exact hhi k (by omega) hk2, le_refl i, hij⟩

/-- sort.Search with a predicate monotone below n finds the boundary of the
predicate in 0..n. -/
theorem sortSearch_spec (n : Nat) (f : Nat → Bool)
    (mono : ∀ a b, a ≤ b → b < n → f a = true → f b = true) :
    (∀ k, k < sortSearch n f → f k = false) ∧
    (∀ k, sortSearch n f ≤ k → k < n → f k = true) ∧
    sortSearch n f ≤ n := by
  have h := sortSearchAux_spec f n mono (n + 1) 0 n (by omega) (by omega) (le_refl n)
      (by intro k hk; omega) (by intro k h1 h2; omega)
  exact ⟨h.1, h.2.1, h.2.2.2⟩

/-- On a leaf array sorted by datum, the at-or-above-target test driving the
binary searches is monotone in the index. -/
theorem searchPred_mono (tls : List treeLeaf) (hs : List.Sorted leafDatumLe tls) (sd : GoBytes) :
    ∀ a b, a ≤ b → b < tls.length →
      decide (0 ≤ bytesCompare (tls.getD a zeroLeaf).datum sd) = true →
      decide (0 ≤ bytesCompare (tls.getD b zeroLeaf).datum sd) = true := by
  intro a b hab hb hfa
  rw [decide_eq_true_iff] at hfa ⊢
  have ha : a < tls.length := by omega
  have hsorted : bytesCompare (tls.getD a zeroLeaf).datum (tls.getD b zeroLeaf).datum ≤ 0 := by
    rcases eq_or_lt_of_le hab with rfl | hlt
    · have := (bytesCompare_eq_zero_iff (tls.getD a zeroLeaf).datum (tls.getD a zeroLeaf).datum).mpr rfl
      omega
    · have hpair := List.pairwise_iff_get.mp hs ⟨a, ha⟩ ⟨b, hb⟩ hlt
      rw [getD_eq_get tls zeroLeaf a ha, getD_eq_get tls zeroLeaf b hb]
      exact hpair
  have h1 : bytesCompare sd (tls.getD a zeroLeaf).datum ≤ 0 := by
    rw [bytesCompare_neg]; omega
  have h2 := bytesCompare_le_trans _ _ _ h1 hsorted
  rw [bytesCompare_neg]; omega

/-- On a leaf array sorted by datum that contains the target datum, the
binary search of the package lands on the first exact match. -/
theorem sortSearch_finds (tls : List treeLeaf) (hs : List.Sorted leafDatumLe tls) (sd : GoBytes)
    (hmem : sd ∈ tls.map treeLeaf.datum) :
    sortSearch tls.length (fun k => decide (0 ≤ bytesCompare (tls.getD k zeroLeaf).datum sd)) < tls.length ∧
    (tls.getD (sortSearch tls.length fun k => decide (0 ≤ bytesCompare (tls.getD k zeroLeaf).datum sd)) zeroLeaf).datum = sd ∧
    ∀ k, k < sortSearch tls.length (fun k => decide (0 ≤ bytesCompare (tls.getD k zeroLeaf).datum sd)) →
      (tls.getD k zeroLeaf).datum ≠ sd := by
  set r := sortSearch tls.length fun k => decide (0 ≤ bytesCompare (tls.getD k zeroLeaf).datum sd) with hr
  have spec := sortSearch_spec tls.length _ (searchPred_mono tls hs sd)
  rw [← hr] at spec
  rw [List.mem_map] at hmem
  obtain ⟨l, hl, hld⟩ := hmem
  obtain ⟨m, hm⟩ := List.mem_iff_get.mp hl
  have hmd : (tls.getD m.val zeroLeaf).datum = sd := by
    rw [getD_eq_get tls zeroLeaf m.val m.isLt, hm, hld]
  have hfm : decide (0 ≤ bytesCompare (tls.getD m.val zeroLeaf).datum sd) = true := by
    rw [decide_eq_true_iff, hmd]
    have h0 := (bytesCompare_eq_zero_iff sd sd).mpr rfl
    omega
  have hrm : r ≤ m.val := by
    by_contra hc
    have hfalse := spec.1 m.val (by omega)
    rw [hfm] at hfalse
    cases hfalse
  have hrlen : r < tls.length := lt_of_le_of_lt hrm m.isLt
  have hfr := spec.2.1 r (le_refl r) hrlen
  rw [decide_eq_true_iff] at hfr
  have hle : bytesCompare (tls.getD r zeroLeaf).datum sd ≤ 0 := by
    rcases eq_or_lt_of_le hrm with heq | hlt
    · rw [heq, hmd]
      have h0 := (bytesCompare_eq_zero_iff sd sd).mpr rfl
      omega
    · have hpair := List.pairwise_iff_get.mp hs ⟨r, hrlen⟩ m hlt
      rw [getD_eq_get tls zeroLeaf r hrlen, ← hmd, getD_eq_get tls zeroLeaf m.val m.isLt]
      exact hpair
  refine ⟨hrlen, (bytesCompare_eq_zero_iff _ _).mp (by omega), ?_⟩
  intro k hk hkd
  have hfk := spec.1 k hk
  rw [decide_eq_false_iff_not] at hfk
  apply hfk
  rw [hkd]
  have h0 := (bytesCompare_eq_zero_iff sd sd).mpr rfl
  omega

/-- On a tree whose leaves are sorted by datum and contain the target datum,
VerifySerializedDatum dispatches to path verification of a leaf holding
exactly that datum. -/
theorem VerifySerializedDatum_found (t : MerkleTree) (H : GoBytes → GoBytes) (sd : GoBytes)
    (hs : List.Sorted leafDatumLe t.tls) (hmem : sd ∈ t.tls.map treeLeaf.datum) :
    ∃ i, i < t.tls.length ∧ (t.tls.getD i zeroLeaf).datum = sd ∧
      t.VerifySerializedDatum H sd = t.verify H i := by
  obtain ⟨h1, h2, _⟩ := sortSearch_finds t.tls hs sd hmem
  refine ⟨_, h1, h2, ?_⟩
  simp only [MerkleTree.VerifySerializedDatum]
  rw [if_pos ⟨h1, (bytesCompare_eq_zero_iff _ _).mpr h2⟩]

/-- When no leaf holds the target datum, VerifySerializedDatum returns
(false, ErrNoData) without verifying any path. -/
theorem VerifySerializedDatum_notFound (t : MerkleTree) (H : GoBytes → GoBytes) (sd : GoBytes)
    (hnone : sd ∉ t.tls.map treeLeaf.datum) :
    t.VerifySerializedDatum H sd = some (false, some .noData) := by
  simp only [MerkleTree.VerifySerializedDatum]
  rw [if_neg]
  rintro ⟨h1, h2⟩
  apply hnone
  rw [List.mem_map]
  refine ⟨t.tls.getD _ zeroLeaf, ?_, (bytesCompare_eq_zero_iff _ _).mp h2⟩
  rw [getD_eq_get _ _ _ h1]
  exact List.get_mem t.tls _ h1

/-- Each fresh leaf caches the hash of its datum. -/
theorem makeLeaves_digest (H : GoBytes → GoBytes) :
    ∀ (base : Nat) (ds : List GoBytes), ∀ l ∈ makeLeaves H base ds, l.digest = H l.datum := by
  intro base ds
  induction ds generalizing base with
  | nil => intro l hl; cases hl
  | cons d ds ih =>
    intro l hl
    rcases List.mem_cons.mp hl with rfl | hl
    · rfl
    · exact ih (base + 1) l hl

/-- The datum fields of fresh leaves list the given data in order. -/
theorem makeLeaves_map_datum (H : GoBytes → GoBytes) :
    ∀ (base : Nat) (ds : List GoBytes), (makeLeaves H base ds).map treeLeaf.datum = ds := by
  intro base ds
  induction ds generalizing base with
  | nil => rfl
  | cons d ds ih => simp [makeLeaves, ih]

/-- The orderedIDs of fresh leaves run sequentially from base. -/
theorem makeLeaves_map_orderedID (H : GoBytes → GoBytes) :
    ∀ (base : Nat) (ds : List GoBytes),
      (makeLeaves H base ds).map treeLeaf.orderedID = List.range' base ds.length := by
  intro base ds
  induction ds generalizing base with
  | nil => rfl
  | cons d ds ih => simp [makeLeaves, ih, List.range'_succ]

/-- makeLeaves produces one leaf per datum. -/
theorem makeLeaves_length (H : GoBytes → GoBytes) (base : Nat) (ds : List GoBytes) :
    (makeLeaves H base ds).length = ds.length := by
  have h := makeLeaves_map_datum H base ds
  calc (makeLeaves H base ds).length
      = ((makeLeaves H base ds).map treeLeaf.datum).length := (List.length_map _ _).symm
    _ = ds.length := by rw [h]

/-- Inversion of a successful NewTree: building requires availability and
data, the leaves are the content-sorted fresh leaves, and the merkle nodes
are constructed over them. -/
theorem NewTree_ok {avail : Bool} {H : GoBytes → GoBytes} {data : List GoBytes} {t : MerkleTree}
    (h : NewTree avail H data = .ok t) :
    avail = true ∧ data ≠ [] ∧
      t.tls = sortLeavesByDatum (makeLeaves H 0 data) ∧
      t.mns = constructMerkleNodes H t.tls := by
  cases avail with
  | false => exact absurd h (by simp [NewTree])
  | true =>
    cases data with
    | nil => exact absurd h (by simp [NewTree])
    | cons d ds =>
      have h' : MerkleTree.mk (constructMerkleNodes H (appendTreeLeaves H [] (d :: ds)))
          (appendTreeLeaves H [] (d :: ds)) = t := by
        simp only [NewTree] at h
        rw [if_neg (by decide), if_neg (by simp)] at h
        exact Except.ok.inj h
      refine ⟨rfl, by simp, ?_, ?_⟩
      · rw [← h']
        simp [appendTreeLeaves]
      · rw [← h']

/-- The leaves of a freshly built tree: sorted by datum, digests equal to
the hash of the datum, datum fields a permutation of the input data,
orderedIDs a permutation of 0..L-1. -/
theorem NewTree_tls_spec {avail : Bool} {H : GoBytes → GoBytes} {data : List GoBytes}
    {t : MerkleTree} (h : NewTree avail H data = .ok t) :
    List.Sorted leafDatumLe t.tls ∧
    (∀ l ∈ t.tls, l.digest = H l.datum) ∧
    (t.tls.map treeLeaf.datum).Perm data ∧
    (t.tls.map treeLeaf.orderedID).Perm (List.range data.length) ∧
    t.tls.length = data.length := by
  obtain ⟨-, -, htls, -⟩ := NewTree_ok h
  have hperm : t.tls.Perm (makeLeaves H 0 data) := by
    rw [htls]; exact sortLeavesByDatum_perm _
  refine ⟨?_, ?_, ?_, ?_, ?_⟩
  · rw [htls]; exact sortLeavesByDatum_sorted _
  · intro l hl
    exact makeLeaves_digest H 0 data l (hperm.mem_iff.mp hl)
  · have := hperm.map treeLeaf.datum
    rwa [makeLeaves_map_datum] at this
  · have := hperm.map treeLeaf.orderedID
    rw [makeLeaves_map_orderedID] at this
    rwa [List.range_eq_range']
  · rw [hperm.length_eq, makeLeaves_length]

/-- sizesOK n sizes says sizes is exactly the chain of shrinking row counts
the planner produces from n down to 1. -/
def sizesOK : Nat → List Nat → Prop
  | n, [] => n ≤ 1
  | n, s :: rest => 1 < n ∧ s = nextRowCount n ∧ sizesOK s rest

/-- The next row count is the half rounded up. -/
theorem nextRowCount_eq (n : Nat) : nextRowCount n = (n + 1) / 2 := by
  simp only [nextRowCount]
  split_ifs with h <;> omega

/-- The planner loop halves (rounding odd counts up) until reaching 1. -/
theorem merkleRowCountsAux_sizesOK : ∀ (fuel n : Nat), n ≤ fuel → sizesOK n (merkleRowCountsAux fuel n) := by
  intro fuel
  induction fuel with
  | zero =>
    intro n hn
    simp only [merkleRowCountsAux, sizesOK]
    omega
  | succ fuel ih =>
    intro n hn
    simp only [merkleRowCountsAux]
    by_cases h1 : 1 < n
    · rw [if_pos h1]
      have hnext : nextRowCount n < n := by
        rw [nextRowCount_eq]; omega
      exact ⟨h1, rfl, ih (nextRowCount n) (by omega)⟩
    · rw [if_neg h1]
      simp only [sizesOK]
      omega

/-- The planned row counts satisfy the shrinking-chain predicate. -/
theorem merkleRowCounts_sizesOK (n : Nat) : sizesOK n (merkleRowCounts n) :=
  merkleRowCountsAux_sizesOK n n (le_refl n)

/-- A hashed row has exactly the planned size. -/
theorem hashRow_length (H : GoBytes → GoBytes) (children : List GoBytes) (size : Nat) :
    (hashRow H children size).length = size := by
  simp [hashRow]

/-- Node j of a hashed row is the hash of children 2j and 2j+1 (the latter
contributing nothing when absent). -/
theorem hashRow_get (H : GoBytes → GoBytes) (children : List GoBytes) (size : Nat)
    {j : Nat} (hj : j < size) :
    (hashRow H children size)[j]? = some (H (children.getD (2 * j) [] ++ children.getD (2 * j + 1) [])) := by
  simp [hashRow, List.getElem?_map, List.getElem?_range hj]

/-- There is one built row per planned size. -/
theorem rowsUp_length (H : GoBytes → GoBytes) :
    ∀ (sizes : List Nat) (children : List GoBytes), (rowsUp H children sizes).length = sizes.length := by
  intro sizes
  induction sizes with
  | nil => intro children; rfl
  | cons s rest ih => intro children; simp [rowsUp, ih]

/-- During the walk over a row built from the current node's row, the
verifier's recomputed parent digest matches the stored one: the case split
on sibling existence collapses to the constructor's concatenation with
out-of-range defaults. -/
theorem climbStep_built (H : GoBytes → GoBytes) (children : List GoBytes) (s : Nat)
    (idx : Nat) (hidx : idx < children.length) (hs : s = nextRowCount children.length) :
    climbStep H children (hashRow H children s) idx (children.getD idx []) =
      some (true, idx / 2, (hashRow H children s).getD (idx / 2) []) := by
  have hhalf : idx / 2 < s := by
    rw [hs, nextRowCount_eq]; omega
  have hget := hashRow_get H children s hhalf
  have hgetD : (hashRow H children s).getD (idx / 2) [] =
      H (children.getD (2 * (idx / 2)) [] ++ children.getD (2 * (idx / 2) + 1) []) := by
    rw [List.getD_eq_getElem?_getD, hget]
    rfl
  by_cases hpar : idx % 2 = 0
  · have h2 : 2 * (idx / 2) = idx := by omega
    rw [h2] at hget hgetD
    simp only [climbStep, if_pos hpar]
    rw [hget]
    have hsib : (if idx < children.length - 1 then children.getD (idx + 1) [] else []) =
        children.getD (idx + 1) [] := by
      by_cases hlast : idx < children.length - 1
      · rw [if_pos hlast]
      · rw [if_neg hlast, List.getD_eq_default]
        omega
    rw [hsib, hgetD]
    simp
  · have hodd : idx % 2 = 1 := by omega
    have h3 : 2 * (idx / 2) + 1 = idx := by omega
    have h2 : 2 * (idx / 2) = idx - 1 := by omega
    rw [h3, h2] at hget hgetD
    have hp2 : (idx - 1) / 2 = idx / 2 := by omega
    have hlt : idx - 1 < children.length := by omega
    simp only [climbStep, if_neg hpar]
    have hsib : children[idx - 1]? = some (children.getD (idx - 1) []) := by
      simp [List.getD_eq_getElem?_getD, List.getElem?_eq_getElem hlt]
    rw [hsib, hp2, hget, hgetD]
    simp

/-- Climbing a stack of rows in which every row hashes the one below it
always verifies: at every level the recomputed pair hash equals the stored
parent digest. -/
theorem climb_rowsUp (H : GoBytes → GoBytes) :
    ∀ (sizes : List Nat) (children : List GoBytes) (idx : Nat),
      sizesOK children.length sizes → idx < children.length →
      climb H children (rowsUp H children sizes) idx (children.getD idx []) = some true := by
  intro sizes
  induction sizes with
  | nil => intro children idx hok hidx; rfl
  | cons s rest ih =>
    intro children idx hok hidx
    obtain ⟨h1, hs, hrest⟩ := hok
    simp only [rowsUp, climb]
    rw [climbStep_built H children s idx hidx hs]
    show climb H (hashRow H children s) (rowsUp H (hashRow H children s) rest) (idx / 2)
        ((hashRow H children s).getD (idx / 2) []) = some true
    apply ih
    · rw [hashRow_length]; exact hrest
    · rw [hashRow_length, hs, nextRowCount_eq]; omega

/-- On a tree with at least two leaves whose node rows were constructed over
its leaves and whose cached leaf digests hash their datum, path verification
succeeds at every leaf index. -/
theorem verify_built (t : MerkleTree) (H : GoBytes → GoBytes)
    (hmns : t.mns = constructMerkleNodes H t.tls)
    (hdig : ∀ l ∈ t.tls, l.digest = H l.datum)
    (hlen : 2 ≤ t.tls.length) (i : Nat) (hi : i < t.tls.length) :
    t.verify H i = some (true, none) := by
  have hrev : t.mns.reverse = rowsUp H (t.tls.map treeLeaf.digest) (merkleRowCounts t.tls.length) := by
    rw [hmns]
    simp [constructMerkleNodes]
  have hok := merkleRowCounts_sizesOK t.tls.length
  obtain ⟨s, rest, hsr⟩ : ∃ s rest, merkleRowCounts t.tls.length = s :: rest := by
    cases hsz : merkleRowCounts t.tls.length with
    | nil => rw [hsz] at hok; simp only [sizesOK] at hok; omega
    | cons s rest => exact ⟨s, rest, rfl⟩
  have hchlen : (t.tls.map treeLeaf.digest).length = t.tls.length := List.length_map _ _
  have hcur : (t.tls.map treeLeaf.digest).getD i [] = H (t.tls[i].datum) := by
    rw [getD_eq_get (t.tls.map treeLeaf.digest) [] i (by rw [hchlen]; exact hi)]
    simp only [List.get_eq_getElem, List.getElem_map]
    exact hdig t.tls[i] (List.getElem_mem hi)
  have hclimb := climb_rowsUp H (merkleRowCounts t.tls.length) (t.tls.map treeLeaf.digest) i
      (by rw [hchlen]; exact hok) (by rw [hchlen]; exact hi)
  simp only [MerkleTree.verify]
  split
  · rename_i heq
    rw [List.getElem?_eq_getElem hi] at heq
    cases heq
  · rename_i leaf heq1
    rw [List.getElem?_eq_getElem hi] at heq1
    have hleaf : leaf = t.tls[i] := (Option.some.inj heq1).symm
    split
    · rename_i heq2
      rw [hrev, hsr] at heq2
      simp only [rowsUp] at heq2
      cases heq2
    · rename_i r0 rest' heq2
      have hrows : r0 :: rest' = rowsUp H (t.tls.map treeLeaf.digest) (merkleRowCounts t.tls.length) := by
        rw [← heq2, hrev]
      rw [hrows, hleaf, ← hcur, hclimb]
      rfl

/-- When every cached digest hashes its datum, the digest column is the
hash image of the datum column. -/
theorem map_digest_eq (H : GoBytes → GoBytes) (tls : List treeLeaf)
    (hdig : ∀ l ∈ tls, l.digest = H l.datum) :
    tls.map treeLeaf.digest = (tls.map treeLeaf.datum).map H := by
  rw [List.map_map]
  exact List.map_congr_left (fun l hl => hdig l hl)

/-- The datum column of a datum-sorted leaf list is sorted. -/
theorem sorted_map_datum {tls : List treeLeaf} (hs : List.Sorted leafDatumLe tls) :
    List.Sorted bytesLe (tls.map treeLeaf.datum) :=
  List.Pairwise.map treeLeaf.datum (fun _ _ h => h) hs

/-- A concrete injective stand-in hash function used for the concrete
instantiations below. -/
def H0 : GoBytes → GoBytes := fun l => 0 :: l

/-- C2 as amended: with the hash available, build succeeds on every
non-empty item set; on a tree of at least two items, every member item
verifies as (true, nil); and on a tree of any size, an item whose
serialized datum is absent yields (false, ErrNoData). (As stated, the claim
fails for a one-item set: member verification then panics on the empty node
rows; see the counterexample.) -/
theorem claim_C2_verify_members_and_nonmembers (H : GoBytes → GoBytes) (data : List GoBytes) :
    (data ≠ [] → ∃ t, NewTree true H data = .ok t) ∧
    (∀ t, NewTree true H data = .ok t → 2 ≤ data.length →
      ∀ x ∈ data, t.VerifySerializedDatum H x = some (true, none)) ∧
    (∀ t, NewTree true H data = .ok t →
      ∀ y, y ∉ data → t.VerifySerializedDatum H y = some (false, some .noData)) := by
  refine ⟨?_, ?_, ?_⟩
  · intro hne
    refine ⟨MerkleTree.mk (constructMerkleNodes H (appendTreeLeaves H [] data))
      (appendTreeLeaves H [] data), ?_⟩
    simp only [NewTree]
    rw [if_neg (by decide), if_neg (by simpa using hne)]
  · intro t ht hlen2 x hx
    obtain ⟨hs, hdig, hdperm, -, hlen⟩ := NewTree_tls_spec ht
    obtain ⟨-, -, -, hmns⟩ := NewTree_ok ht
    obtain ⟨i, hi, hdi, heq⟩ :=
      VerifySerializedDatum_found t H x hs (hdperm.mem_iff.mpr hx)
    rw [heq]
    exact verify_built t H hmns hdig (by omega) i hi
  · intro t ht y hy
    obtain ⟨-, -, hdperm, -, -⟩ := NewTree_tls_spec ht
    exact VerifySerializedDatum_notFound t H y (fun hmem => hy (hdperm.mem_iff.mp hmem))

/-- Witness for C2 at the concrete two-item set with data 1 and 2: build
succeeds, the member 1 verifies, the absent 9 reports ErrNoData. -/
theorem claim_C2_verify_members_and_nonmembers_witness :
    NewTree true H0 [[1], [2]] =
      .ok (MerkleTree.mk [[[0, 0, 1, 0, 2]]] [⟨[0, 1], [1], 0⟩, ⟨[0, 2], [2], 1⟩]) ∧
    (MerkleTree.mk [[[0, 0, 1, 0, 2]]] [⟨[0, 1], [1], 0⟩, ⟨[0, 2], [2], 1⟩]).VerifySerializedDatum H0 [1] =
      some (true, none) ∧
    (MerkleTree.mk [[[0, 0, 1, 0, 2]]] [⟨[0, 1], [1], 0⟩, ⟨[0, 2], [2], 1⟩]).VerifySerializedDatum H0 [9] =
      some (false, some .noData) := by
  have hok : NewTree true H0 [[1], [2]] =
      .ok (MerkleTree.mk [[[0, 0, 1, 0, 2]]] [⟨[0, 1], [1], 0⟩, ⟨[0, 2], [2], 1⟩]) := rfl
  refine ⟨hok, ?_, ?_⟩
  · exact (claim_C2_verify_members_and_nonmembers H0 [[1], [2]]).2.1 _ hok (by decide) [1] (by decide)
  · exact (claim_C2_verify_members_and_nonmembers H0 [[1], [2]]).2.2 _ hok [9] (by decide)

/-- C2 counterexample: a one-item set builds, but verifying the member
panics (out-of-range access on the empty node rows, modelled none) instead
of returning (true, nil) as the claim requires for every set size. -/
theorem claim_C2_counterexample :
    NewTree true H0 [[5]] = .ok (MerkleTree.mk [] [⟨[0, 5], [5], 0⟩]) ∧
    (MerkleTree.mk [] [⟨[0, 5], [5], 0⟩]).VerifySerializedDatum H0 [5] = none ∧
    (MerkleTree.mk [] [⟨[0, 5], [5], 0⟩]).VerifySerializedDatum H0 [5] ≠ some (true, none) :=
  ⟨rfl, rfl, by decide⟩

/-- C3 as amended: building from exactly one item yields zero internal
levels (the planner returns no row sizes and mns is empty), and MerkleRoot
is then the out-of-range access (modelled none), not the leaf digest. -/
theorem claim_C3_single_leaf_root (avail : Bool) (H : GoBytes → GoBytes) (d : GoBytes)
    (t : MerkleTree) (h : NewTree avail H [d] = .ok t) :
    merkleRowCounts 1 = [] ∧ t.mns = [] ∧ t.MerkleRoot = none := by
  obtain ⟨-, -, htls, hmns⟩ := NewTree_ok h
  have hlen : t.tls.length = 1 := by
    rw [htls, (sortLeavesByDatum_perm _).length_eq, makeLeaves_length]
    rfl
  have hm : t.mns = [] := by
    rw [hmns]
    simp [constructMerkleNodes, hlen, merkleRowCounts, merkleRowCountsAux, rowsUp]
  refine ⟨rfl, hm, ?_⟩
  simp [MerkleTree.MerkleRoot, hm]

/-- Witness for C3 at the concrete one-item set with datum 9. -/
theorem claim_C3_single_leaf_root_witness :
    merkleRowCounts 1 = [] ∧ (MerkleTree.mk [] [⟨[0, 9], [9], 0⟩]).mns = [] ∧
    (MerkleTree.mk [] [⟨[0, 9], [9], 0⟩]).MerkleRoot = none :=
  claim_C3_single_leaf_root true H0 [9] _ rfl

/-- C3 counterexample: for the one-item tree the planner does yield zero
levels, but MerkleRoot is the out-of-range access none, not the leaf digest
the claim promises. -/
theorem claim_C3_counterexample :
    NewTree true H0 [[7]] = .ok (MerkleTree.mk [] [⟨[0, 7], [7], 0⟩]) ∧
    (MerkleTree.mk [] [⟨[0, 7], [7], 0⟩]).MerkleRoot = none ∧
    (MerkleTree.mk [] [⟨[0, 7], [7], 0⟩]).MerkleRoot ≠ some [0, 7] :=
  ⟨rfl, rfl, by decide⟩

/-- C1: deleting the absent datum 98 from the tree holding only datum 97
silently drops the surviving leaf (the result allocation is one element too
short), leaving an empty tree; and a delete list longer than the leaf slice
panics (negative allocation, modelled none). The claim that absent items
are skipped with no other leaf removed fails on both counts. -/
theorem claim_C1_delete_missing_corrupts :
    NewTree true H0 [[97]] = .ok (MerkleTree.mk [] [⟨[0, 97], [97], 0⟩]) ∧
    (MerkleTree.mk [] [⟨[0, 97], [97], 0⟩]).DeleteAndReconstruct H0 [[98]] =
      some (MerkleTree.mk [] []) ∧
    deleteTreeLeaves [⟨[0, 97], [97], 0⟩] [[98], [99]] = none :=
  ⟨rfl, by decide, by decide⟩

/-- C4: a tree built from three items that sort ascending to a, b, c has
leaf-adjacent node row [H (H a ++ H b), H (H c)] -- the odd leftover leaf is
hashed alone, not duplicated -- and root H (H (H a ++ H b) ++ H (H c)). -/
theorem claim_C4_three_leaf_shape (H : GoBytes → GoBytes) (a b c : GoBytes)
    (data : List GoBytes) (hab : bytesCompare a b = -1) (hbc : bytesCompare b c = -1)
    (hperm : data.Perm [a, b, c]) (t : MerkleTree) (h : NewTree true H data = .ok t) :
    t.mns = [[H (H (H a ++ H b) ++ H (H c))], [H (H a ++ H b), H (H c)]] ∧
    t.MerkleRoot = some (H (H (H a ++ H b) ++ H (H c))) := by
  obtain ⟨hs, hdig, hdperm, -, hlen'⟩ := NewTree_tls_spec h
  obtain ⟨-, -, -, hmns⟩ := NewTree_ok h
  have hlen3 : t.tls.length = 3 := by
    rw [hlen', hperm.length_eq]
    rfl
  have hab' : bytesLe a b := by simp only [bytesLe]; omega
  have hbc' : bytesLe b c := by simp only [bytesLe]; omega
  have hac' : bytesLe a c := bytesCompare_le_trans a b c (by omega) (by omega)
  have hsabc : List.Sorted bytesLe [a, b, c] := by
    refine List.sorted_cons.mpr ⟨?_, List.sorted_cons.mpr ⟨?_, List.sorted_singleton _⟩⟩
    · intro x hx
      rcases List.mem_cons.mp hx with rfl | hx
      · exact hab'
      · rcases List.mem_cons.mp hx with rfl | hx
        · exact hac'
        · cases hx
    · intro x hx
      rcases List.mem_cons.mp hx with rfl | hx
      · exact hbc'
      · cases hx
  have hdatum : t.tls.map treeLeaf.datum = [a, b, c] :=
    List.eq_of_perm_of_sorted (hdperm.trans hperm) (sorted_map_datum hs) hsabc
  have hdigs : t.tls.map treeLeaf.digest = [H a, H b, H c] := by
    rw [map_digest_eq H t.tls hdig, hdatum]
    rfl
  have hval : t.mns = [[H (H (H a ++ H b) ++ H (H c))], [H (H a ++ H b), H (H c)]] := by
    rw [hmns]
    simp only [constructMerkleNodes, hdigs, hlen3]
    have hrows : (rowsUp H [H a, H b, H c] (merkleRowCounts 3)).reverse =
        [[H (H (H a ++ H b) ++ H (H c ++ []))], [H (H a ++ H b), H (H c ++ [])]] := rfl
    rw [hrows]
    simp
  refine ⟨hval, ?_⟩
  simp [MerkleTree.MerkleRoot, hval]

/-- Witness for C4 at the concrete items 1, 2, 3 supplied in the order
3, 1, 2. -/
theorem claim_C4_three_leaf_shape_witness :
    (MerkleTree.mk [[[0, 0, 0, 1, 0, 2, 0, 0, 3]], [[0, 0, 1, 0, 2], [0, 0, 3]]]
        [⟨[0, 1], [1], 1⟩, ⟨[0, 2], [2], 2⟩, ⟨[0, 3], [3], 0⟩]).mns =
      [[H0 (H0 (H0 [1] ++ H0 [2]) ++ H0 (H0 [3]))], [H0 (H0 [1] ++ H0 [2]), H0 (H0 [3])]] ∧
    (MerkleTree.mk [[[0, 0, 0, 1, 0, 2, 0, 0, 3]], [[0, 0, 1, 0, 2], [0, 0, 3]]]
        [⟨[0, 1], [1], 1⟩, ⟨[0, 2], [2], 2⟩, ⟨[0, 3], [3], 0⟩]).MerkleRoot =
      some (H0 (H0 (H0 [1] ++ H0 [2]) ++ H0 (H0 [3]))) :=
  claim_C4_three_leaf_shape H0 [1] [2] [3] [[3], [1], [2]] (by decide) (by decide)
    (by decide) _ rfl

/-- C6: building twice from the same items, supplied in any two orders,
yields identical node rows and an identical root, because the leaves are
canonically sorted by datum bytes before any internal digest is computed. -/
theorem claim_C6_root_order_independent (H : GoBytes → GoBytes) (data1 data2 : List GoBytes)
    (hperm : data1.Perm data2) (t1 t2 : MerkleTree)
    (h1 : NewTree true H data1 = .ok t1) (h2 : NewTree true H data2 = .ok t2) :
    t1.mns = t2.mns ∧ t1.MerkleRoot = t2.MerkleRoot := by
  obtain ⟨hs1, hdig1, hdp1, -, hlen1⟩ := NewTree_tls_spec h1
  obtain ⟨hs2, hdig2, hdp2, -, hlen2⟩ := NewTree_tls_spec h2
  have hdatum : t1.tls.map treeLeaf.datum = t2.tls.map treeLeaf.datum :=
    List.eq_of_perm_of_sorted (hdp1.trans (hperm.trans hdp2.symm))
      (sorted_map_datum hs1) (sorted_map_datum hs2)
  have hdigs : t1.tls.map treeLeaf.digest = t2.tls.map treeLeaf.digest := by
    rw [map_digest_eq H _ hdig1, map_digest_eq H _ hdig2, hdatum]
  have hlen : t1.tls.length = t2.tls.length := by
    rw [hlen1, hlen2, hperm.length_eq]
  have hmns : t1.mns = t2.mns := by
    rw [(NewTree_ok h1).2.2.2, (NewTree_ok h2).2.2.2]
    simp only [constructMerkleNodes, hdigs, hlen]
  exact ⟨hmns, by simp only [MerkleTree.MerkleRoot, hmns]⟩

/-- Witness for C6 at the concrete item set 1, 2, 3 in two input orders. -/
theorem claim_C6_root_order_independent_witness :
    (MerkleTree.mk [[[0, 0, 0, 1, 0, 2, 0, 0, 3]], [[0, 0, 1, 0, 2], [0, 0, 3]]]
        [⟨[0, 1], [1], 0⟩, ⟨[0, 2], [2], 1⟩, ⟨[0, 3], [3], 2⟩]).mns =
      (MerkleTree.mk [[[0, 0, 0, 1, 0, 2, 0, 0, 3]], [[0, 0, 1, 0, 2], [0, 0, 3]]]
        [⟨[0, 1], [1], 1⟩, ⟨[0, 2], [2], 2⟩, ⟨[0, 3], [3], 0⟩]).mns ∧
    (MerkleTree.mk [[[0, 0, 0, 1, 0, 2, 0, 0, 3]], [[0, 0, 1, 0, 2], [0, 0, 3]]]
        [⟨[0, 1], [1], 0⟩, ⟨[0, 2], [2], 1⟩, ⟨[0, 3], [3], 2⟩]).MerkleRoot =
      (MerkleTree.mk [[[0, 0, 0, 1, 0, 2, 0, 0, 3]], [[0, 0, 1, 0, 2], [0, 0, 3]]]
        [⟨[0, 1], [1], 1⟩, ⟨[0, 2], [2], 2⟩, ⟨[0, 3], [3], 0⟩]).MerkleRoot :=
  claim_C6_root_order_independent H0 [[1], [2], [3]] [[3], [1], [2]] (by decide) _ _ rfl rfl

/-- Strict orderedID order, used to pin down the unique orderedID-sorted
permutation. -/
def leafIDLt (a b : treeLeaf) : Prop := a.orderedID < b.orderedID

instance : IsAntisymm treeLeaf leafIDLt :=
  ⟨fun a _ h1 h2 => absurd (Nat.lt_trans h1 h2) (Nat.lt_irrefl a.orderedID)⟩

/-- A list sorted by orderedID whose orderedIDs are pairwise distinct is
strictly sorted. -/
theorem sorted_leafIDLt_of_le_nodup {l : List treeLeaf}
    (hs : List.Sorted leafIDLe l) (hnd : (l.map treeLeaf.orderedID).Nodup) :
    List.Sorted leafIDLt l := by
  have hnd' : List.Pairwise (fun a b : treeLeaf => a.orderedID ≠ b.orderedID) l := by
    rw [List.Nodup, List.pairwise_map] at hnd
    exact hnd
  exact (hs.and hnd').imp (fun h => Nat.lt_of_le_of_ne h.1 h.2)

/-- Every fresh leaf has orderedID at least the starting base. -/
theorem makeLeaves_id_ge (H : GoBytes → GoBytes) :
    ∀ (base : Nat) (ds : List GoBytes), ∀ l ∈ makeLeaves H base ds, base ≤ l.orderedID := by
  intro base ds
  induction ds generalizing base with
  | nil => intro l hl; cases hl
  | cons d ds ih =>
    intro l hl
    rcases List.mem_cons.mp hl with rfl | hl
    · exact Nat.le_refl base
    · exact Nat.le_of_succ_le (ih (base + 1) l hl)

/-- Fresh leaves are strictly sorted by orderedID. -/
theorem makeLeaves_sorted_lt (H : GoBytes → GoBytes) :
    ∀ (base : Nat) (ds : List GoBytes), List.Sorted leafIDLt (makeLeaves H base ds) := by
  intro base ds
  induction ds generalizing base with
  | nil => exact List.sorted_nil
  | cons d ds ih =>
    refine List.sorted_cons.mpr ⟨?_, ih (base + 1)⟩
    intro l hl
    exact Nat.lt_of_lt_of_le (Nat.lt_succ_self base) (makeLeaves_id_ge H (base + 1) ds l hl)

/-- Sorting by orderedID undoes the content sort: any permutation of the
fresh leaves, re-sorted by orderedID, is the fresh leaf list itself. -/
theorem sortByID_restores (H : GoBytes → GoBytes) (data : List GoBytes) (tls : List treeLeaf)
    (hperm : tls.Perm (makeLeaves H 0 data)) :
    sortLeavesByID tls = makeLeaves H 0 data := by
  have hs1 : List.Sorted leafIDLt (sortLeavesByID tls) := by
    apply sorted_leafIDLt_of_le_nodup (sortLeavesByID_sorted tls)
    have hidperm : ((sortLeavesByID tls).map treeLeaf.orderedID).Perm
        ((makeLeaves H 0 data).map treeLeaf.orderedID) :=
      ((sortLeavesByID_perm tls).trans hperm).map _
    rw [makeLeaves_map_orderedID] at hidperm
    exact hidperm.nodup_iff.mpr (List.nodup_range' _ _)
  exact List.eq_of_perm_of_sorted ((sortLeavesByID_perm tls).trans hperm) hs1
    (makeLeaves_sorted_lt H 0 data)

/-- C9: on a built tree, Leaves returns the stored serialized data in
original insertion order (it equals the input sequence), and its length is
the leaf count. -/
theorem claim_C9_leaves_insertion_order (avail : Bool) (H : GoBytes → GoBytes)
    (data : List GoBytes) (t : MerkleTree) (h : NewTree avail H data = .ok t) :
    t.Leaves = data ∧ t.Leaves.length = t.NumLeaves := by
  obtain ⟨-, -, htls, -⟩ := NewTree_ok h
  have hperm : t.tls.Perm (makeLeaves H 0 data) := by
    rw [htls]; exact sortLeavesByDatum_perm _
  have hleaves : t.Leaves = data := by
    simp only [MerkleTree.Leaves]
    rw [sortByID_restores H data t.tls hperm, makeLeaves_map_datum]
  refine ⟨hleaves, ?_⟩
  rw [hleaves]
  simp only [MerkleTree.NumLeaves]
  rw [hperm.length_eq, makeLeaves_length]

/-- Witness for C9 at the concrete input order 3, 1, 2. -/
theorem claim_C9_leaves_insertion_order_witness :
    (MerkleTree.mk [[[0, 0, 0, 1, 0, 2, 0, 0, 3]], [[0, 0, 1, 0, 2], [0, 0, 3]]]
        [⟨[0, 1], [1], 1⟩, ⟨[0, 2], [2], 2⟩, ⟨[0, 3], [3], 0⟩]).Leaves = [[3], [1], [2]] ∧
    (MerkleTree.mk [[[0, 0, 0, 1, 0, 2, 0, 0, 3]], [[0, 0, 1, 0, 2], [0, 0, 3]]]
        [⟨[0, 1], [1], 1⟩, ⟨[0, 2], [2], 2⟩, ⟨[0, 3], [3], 0⟩]).Leaves.length =
      (MerkleTree.mk [[[0, 0, 0, 1, 0, 2, 0, 0, 3]], [[0, 0, 1, 0, 2], [0, 0, 3]]]
        [⟨[0, 1], [1], 1⟩, ⟨[0, 2], [2], 2⟩, ⟨[0, 3], [3], 0⟩]).NumLeaves :=
  claim_C9_leaves_insertion_order true H0 [[3], [1], [2]] _ rfl

/-- The scan of VerifyDigest: a hit is the first index whose leaf datum
equals the target; a miss means no leaf datum equals the target. -/
theorem scanDatum_spec (b : GoBytes) : ∀ (tls : List treeLeaf),
    (∀ i, scanDatum b tls = some i → i < tls.length ∧ (tls.getD i zeroLeaf).datum = b ∧
      ∀ k, k < i → (tls.getD k zeroLeaf).datum ≠ b) ∧
    (scanDatum b tls = none → ∀ l ∈ tls, l.datum ≠ b) := by
  intro tls
  induction tls with
  | nil =>
    refine ⟨?_, ?_⟩
    · intro i hi; cases hi
    · intro _ l hl; cases hl
  | cons x xs ih =>
    by_cases hx : bytesCompare b x.datum = 0
    · have hxd : x.datum = b := ((bytesCompare_eq_zero_iff b x.datum).mp hx).symm
      refine ⟨?_, ?_⟩
      · intro i hi
        simp only [scanDatum, if_pos hx] at hi
        cases hi
        refine ⟨Nat.succ_pos _, hxd, ?_⟩
        intro k hk; omega
      · intro hnone
        simp only [scanDatum, if_pos hx] at hnone
        cases hnone
    · refine ⟨?_, ?_⟩
      · intro i hi
        simp only [scanDatum, if_neg hx] at hi
        cases hscan : scanDatum b xs with
        | none => rw [hscan] at hi; cases hi
        | some j =>
          rw [hscan] at hi
          simp only [Option.map_some'] at hi
          cases hi
          obtain ⟨hj1, hj2, hj3⟩ := (ih.1) j hscan
          refine ⟨by simpa using Nat.succ_lt_succ hj1, hj2, ?_⟩
          intro k hk
          cases k with
          | zero =>
            intro hkd
            exact hx ((bytesCompare_eq_zero_iff b x.datum).mpr hkd.symm)
          | succ k' => exact hj3 k' (by omega)
      · intro hnone l hl
        simp only [scanDatum, if_neg hx] at hnone
        rcases List.mem_cons.mp hl with rfl | hl
        · intro hld
          exact hx ((bytesCompare_eq_zero_iff b l.datum).mpr (by rw [hld]))
        · cases hscan : scanDatum b xs with
          | none => exact (ih.2) hscan l hl
          | some j => rw [hscan] at hnone; cases hnone

/-- C8: VerifyDigest locates its leaf by scanning the datum fields: it
dispatches to path verification of the first leaf whose datum equals the
argument exactly when one exists, and returns (false, ErrNoData) exactly
when no leaf datum equals the argument; the digest fields play no part in
the lookup. -/
theorem claim_C8_verifyDigest_scans_datum (t : MerkleTree) (H : GoBytes → GoBytes) (b : GoBytes) :
    ((∃ l ∈ t.tls, l.datum = b) →
      ∃ i, i < t.tls.length ∧ (t.tls.getD i zeroLeaf).datum = b ∧
        (∀ k, k < i → (t.tls.getD k zeroLeaf).datum ≠ b) ∧
        t.VerifyDigest H b = t.verify H i) ∧
    ((∀ l ∈ t.tls, l.datum ≠ b) → t.VerifyDigest H b = some (false, some .noData)) := by
  have hspec := scanDatum_spec b t.tls
  refine ⟨?_, ?_⟩
  · intro hmem
    cases hscan : scanDatum b t.tls with
    | none =>
      obtain ⟨l, hl, hld⟩ := hmem
      exact absurd hld (hspec.2 hscan l hl)
    | some i =>
      obtain ⟨h1, h2, h3⟩ := hspec.1 i hscan
      refine ⟨i, h1, h2, h3, ?_⟩
      simp only [MerkleTree.VerifyDigest]
      rw [hscan]
  · intro hnone
    cases hscan : scanDatum b t.tls with
    | none =>
      simp only [MerkleTree.VerifyDigest]
      rw [hscan]
    | some i =>
      obtain ⟨h1, h2, -⟩ := hspec.1 i hscan
      have hmem : t.tls.getD i zeroLeaf ∈ t.tls := by
        rw [getD_eq_get _ _ _ h1]
        exact List.get_mem t.tls _ h1
      exact absurd h2 (hnone _ hmem)

/-- Witness for C8 on a two-leaf tree: datum 1 is found at its first index
and verified, while the value [0, 1] -- which equals a leaf digest but no
leaf datum -- reports ErrNoData. -/
theorem claim_C8_verifyDigest_scans_datum_witness :
    (∃ i, i < (MerkleTree.mk [[[0, 0, 1, 0, 2]]] [⟨[0, 1], [1], 0⟩, ⟨[0, 2], [2], 1⟩]).tls.length ∧
      ((MerkleTree.mk [[[0, 0, 1, 0, 2]]] [⟨[0, 1], [1], 0⟩, ⟨[0, 2], [2], 1⟩]).tls.getD i zeroLeaf).datum = [1] ∧
      (∀ k, k < i →
        ((MerkleTree.mk [[[0, 0, 1, 0, 2]]] [⟨[0, 1], [1], 0⟩, ⟨[0, 2], [2], 1⟩]).tls.getD k zeroLeaf).datum ≠ [1]) ∧
      (MerkleTree.mk [[[0, 0, 1, 0, 2]]] [⟨[0, 1], [1], 0⟩, ⟨[0, 2], [2], 1⟩]).VerifyDigest H0 [1] =
        (MerkleTree.mk [[[0, 0, 1, 0, 2]]] [⟨[0, 1], [1], 0⟩, ⟨[0, 2], [2], 1⟩]).verify H0 i) ∧
    (MerkleTree.mk [[[0, 0, 1, 0, 2]]] [⟨[0, 1], [1], 0⟩, ⟨[0, 2], [2], 1⟩]).VerifyDigest H0 [0, 1] =
      some (false, some .noData) := by
  refine ⟨?_, ?_⟩
  · exact (claim_C8_verifyDigest_scans_datum
      (MerkleTree.mk [[[0, 0, 1, 0, 2]]] [⟨[0, 1], [1], 0⟩, ⟨[0, 2], [2], 1⟩]) H0 [1]).1
      ⟨⟨[0, 1], [1], 0⟩, by decide, rfl⟩
  · exact (claim_C8_verifyDigest_scans_datum
      (MerkleTree.mk [[[0, 0, 1, 0, 2]]] [⟨[0, 1], [1], 0⟩, ⟨[0, 2], [2], 1⟩]) H0 [0, 1]).2
      (by decide)

/-- Removing one element of a list as a cons-permutation. -/
theorem getElem_cons_eraseIdx_perm {α : Type} :
    ∀ (l : List α) (i : Nat) (h : i < l.length), (l[i] :: l.eraseIdx i).Perm l := by
  intro l
  induction l with
  | nil => intro i h; cases h
  | cons x xs ih =>
    intro i h
    cases i with
    | zero => exact List.Perm.refl _
    | succ i' =>
      have h' : i' < xs.length := by simpa using h
      have h1 : ((x :: xs)[i' + 1] :: (x :: xs).eraseIdx (i' + 1)) =
          xs[i'] :: x :: xs.eraseIdx i' := rfl
      rw [h1]
      exact (List.Perm.swap x xs[i'] (xs.eraseIdx i')).trans (List.Perm.cons x (ih i' h'))

/-- On a sorted leaf slice containing the datum, removeOneLeaf removes
exactly one leaf holding that datum: the result is still sorted, one
shorter, its leaves all come from the original slice, and putting the datum
back restores the datum multiset. -/
theorem removeOneLeaf_found (tls : List treeLeaf) (d : GoBytes)
    (hs : List.Sorted leafDatumLe tls) (hmem : d ∈ tls.map treeLeaf.datum) :
    List.Sorted leafDatumLe (removeOneLeaf tls d) ∧
    (removeOneLeaf tls d).length + 1 = tls.length ∧
    (d :: (removeOneLeaf tls d).map treeLeaf.datum).Perm (tls.map treeLeaf.datum) ∧
    ∀ l ∈ removeOneLeaf tls d, l ∈ tls := by
  obtain ⟨hjlen, hjd, -⟩ := sortSearch_finds tls hs d hmem
  set j := sortSearch tls.length fun k => decide (0 ≤ bytesCompare (tls.getD k zeroLeaf).datum d) with hj
  have hcond : j < tls.length ∧ bytesCompare (tls.getD j zeroLeaf).datum d = 0 :=
    ⟨hjlen, (bytesCompare_eq_zero_iff _ _).mpr hjd⟩
  have hres : removeOneLeaf tls d = tls.eraseIdx j := by
    simp only [removeOneLeaf]
    rw [← hj, if_pos hcond]
  rw [hres]
  refine ⟨List.Pairwise.sublist (List.eraseIdx_sublist tls j) hs, ?_, ?_, ?_⟩
  · rw [List.length_eraseIdx_of_lt hjlen]
    omega
  · have hperm := getElem_cons_eraseIdx_perm tls j hjlen
    have hmap := hperm.map treeLeaf.datum
    simp only [List.map_cons] at hmap
    have hdj : tls[j].datum = d := by
      rw [getD_eq_get tls zeroLeaf j hjlen] at hjd
      simpa using hjd
    rw [hdj] at hmap
    exact hmap
  · intro l hl
    exact (List.eraseIdx_sublist tls j).subset hl

/-- The full removal loop on a sorted slice, when every datum to delete is
present with multiplicity: the result stays sorted, shrinks by exactly one
leaf per deleted datum, its leaves all come from the original slice, and
putting the deleted data back restores the datum multiset. -/
theorem removeFoundLeaves_spec : ∀ (del : List GoBytes) (tls : List treeLeaf),
    List.Sorted leafDatumLe tls → del.Subperm (tls.map treeLeaf.datum) →
    List.Sorted leafDatumLe (removeFoundLeaves tls del) ∧
    (removeFoundLeaves tls del).length + del.length = tls.length ∧
    (del ++ (removeFoundLeaves tls del).map treeLeaf.datum).Perm (tls.map treeLeaf.datum) ∧
    ∀ l ∈ removeFoundLeaves tls del, l ∈ tls := by
  intro del
  induction del with
  | nil =>
    intro tls hs _
    exact ⟨hs, rfl, List.Perm.refl _, fun _ hl => hl⟩
  | cons d ds ih =>
    intro tls hs hsub
    have hmem : d ∈ tls.map treeLeaf.datum := hsub.subset (List.mem_cons_self d ds)
    obtain ⟨hs1, hlen1, hperm1, hsubset1⟩ := removeOneLeaf_found tls d hs hmem
    have hsub2 : ds.Subperm ((removeOneLeaf tls d).map treeLeaf.datum) := by
      have h1 : (d :: ds).Subperm (d :: (removeOneLeaf tls d).map treeLeaf.datum) :=
        hsub.trans hperm1.symm.subperm
      exact (List.subperm_cons d).mp h1
    obtain ⟨hs2, hlen2, hperm2, hsubset2⟩ := ih (removeOneLeaf tls d) hs1 hsub2
    refine ⟨hs2, ?_, ?_, ?_⟩
    · show (removeFoundLeaves (removeOneLeaf tls d) ds).length + (ds.length + 1) = tls.length
      omega
    · show (d :: (ds ++ (removeFoundLeaves (removeOneLeaf tls d) ds).map treeLeaf.datum)).Perm
        (tls.map treeLeaf.datum)
      exact (List.Perm.cons d hperm2).trans hperm1
    · intro l hl
      exact hsubset1 l (hsubset2 l hl)

/-- Zipping fresh indices onto leaves keeps datum and digest columns,
replaces the orderedID column by the indices, and produces leaves that
differ from originals only in orderedID. -/
theorem renum_aux : ∀ (tls : List treeLeaf) (ns : List Nat), ns.length = tls.length →
    (ns.zipWith (fun i l => { l with orderedID := i }) tls).map treeLeaf.datum = tls.map treeLeaf.datum ∧
    (ns.zipWith (fun i l => { l with orderedID := i }) tls).map treeLeaf.digest = tls.map treeLeaf.digest ∧
    (ns.zipWith (fun i l => { l with orderedID := i }) tls).map treeLeaf.orderedID = ns ∧
    ∀ l ∈ ns.zipWith (fun i l => { l with orderedID := i }) tls,
      ∃ l0 ∈ tls, l.datum = l0.datum ∧ l.digest = l0.digest := by
  intro tls
  induction tls with
  | nil =>
    intro ns hns
    have hns0 : ns = [] := List.length_eq_zero.mp hns
    subst hns0
    exact ⟨rfl, rfl, rfl, fun _ hl => absurd hl (by simp)⟩
  | cons x xs ih =>
    intro ns hns
    cases ns with
    | nil => cases hns
    | cons n ns' =>
      have hns' : ns'.length = xs.length := by simpa using hns
      obtain ⟨h1, h2, h3, h4⟩ := ih ns' hns'
      refine ⟨by simpa using h1, by simpa using h2, by simpa using h3, ?_⟩
      intro l hl
      rcases List.mem_cons.mp hl with rfl | hl
      · exact ⟨x, List.mem_cons_self _ _, rfl, rfl⟩
      · obtain ⟨l0, hl0, hd1, hd2⟩ := h4 l hl
        exact ⟨l0, List.mem_cons_of_mem _ hl0, hd1, hd2⟩


/-- On a sorted leaf slice, deleting a list of data that are all present
(with multiplicity) succeeds and yields: a slice sorted by datum, exactly
one leaf shorter per deleted datum, whose datum multiset is the original
minus the deleted data, whose leaves keep the datum and digest of original
leaves, and whose orderedIDs are exactly 0..L-1. -/
theorem deleteTreeLeaves_spec (old : List treeLeaf) (del : List GoBytes)
    (hs : List.Sorted leafDatumLe old) (hsub : del.Subperm (old.map treeLeaf.datum)) :
    ∃ newTls, deleteTreeLeaves old del = some newTls ∧
      List.Sorted leafDatumLe newTls ∧
      newTls.length + del.length = old.length ∧
      (del ++ newTls.map treeLeaf.datum).Perm (old.map treeLeaf.datum) ∧
      (∀ l ∈ newTls, ∃ l0 ∈ old, l.datum = l0.datum ∧ l.digest = l0.digest) ∧
      (newTls.map treeLeaf.orderedID).Perm (List.range newTls.length) := by
  have hdlen : del.length ≤ old.length := by
    have h := hsub.length_le
    rwa [List.length_map] at h
  obtain ⟨hs1, hlen1, hperm1, hsubset1⟩ := removeFoundLeaves_spec del old hs hsub
  set ar := removeFoundLeaves old del with har
  set byID := sortLeavesByID ar with hbyID
  have hbyIDlen : byID.length = ar.length := (sortLeavesByID_perm ar).length_eq
  obtain ⟨hr1, hr2, hr3, hr4⟩ := renum_aux byID (List.range byID.length) (List.length_range _)
  set renum := (List.range byID.length).zipWith (fun i l => { l with orderedID := i }) byID with hrenum
  have hrenumLen : renum.length = byID.length := by
    have h := congrArg List.length hr1
    simpa using h
  have hkr : old.length - del.length = renum.length := by omega
  have hresult : deleteTreeLeaves old del = some (sortLeavesByDatum renum) := by
    simp only [deleteTreeLeaves]
    rw [if_neg (by omega)]
    show some (sortLeavesByDatum
        (renum.take (old.length - del.length) ++
          List.replicate ((old.length - del.length) - renum.length) zeroLeaf)) =
      some (sortLeavesByDatum renum)
    rw [hkr]
    simp
  refine ⟨sortLeavesByDatum renum, hresult, sortLeavesByDatum_sorted renum, ?_, ?_, ?_, ?_⟩
  · rw [(sortLeavesByDatum_perm renum).length_eq]
    omega
  · have hchain : ((sortLeavesByDatum renum).map treeLeaf.datum).Perm (ar.map treeLeaf.datum) := by
      have ha := (sortLeavesByDatum_perm renum).map treeLeaf.datum
      rw [hr1] at ha
      exact ha.trans ((sortLeavesByID_perm ar).map treeLeaf.datum)
    exact (hchain.append_left del).trans hperm1
  · intro l hl
    have hl1 : l ∈ renum := (sortLeavesByDatum_perm renum).mem_iff.mp hl
    obtain ⟨l0, hl0, hd1, hd2⟩ := hr4 l hl1
    have hl0' : l0 ∈ ar := (sortLeavesByID_perm ar).mem_iff.mp hl0
    exact ⟨l0, hsubset1 l0 hl0', hd1, hd2⟩
  · have hid := (sortLeavesByDatum_perm renum).map treeLeaf.orderedID
    rw [hr3] at hid
    have hlen2 : (sortLeavesByDatum renum).length = byID.length := by
      rw [(sortLeavesByDatum_perm renum).length_eq]
      exact hrenumLen
    rw [hlen2]
    exact hid

/-- C10: the representation invariant -- leaves sorted ascending by datum
byte comparison, orderedIDs forming exactly the multiset 0..L-1 -- is
established by build and preserved by append, and by delete whenever every
deleted item is present (counted with multiplicity). -/
theorem claim_C10_leaf_invariant (H : GoBytes → GoBytes) :
    (∀ (avail : Bool) (data : List GoBytes) (t : MerkleTree), NewTree avail H data = .ok t →
      List.Sorted leafDatumLe t.tls ∧
      (t.tls.map treeLeaf.orderedID).Perm (List.range t.tls.length)) ∧
    (∀ (t : MerkleTree) (data : List GoBytes),
      List.Sorted leafDatumLe t.tls →
      (t.tls.map treeLeaf.orderedID).Perm (List.range t.tls.length) →
      List.Sorted leafDatumLe (t.AppendAndReconstruct H data).tls ∧
      ((t.AppendAndReconstruct H data).tls.map treeLeaf.orderedID).Perm
        (List.range (t.AppendAndReconstruct H data).tls.length)) ∧
    (∀ (t : MerkleTree) (del : List GoBytes),
      List.Sorted leafDatumLe t.tls →
      (t.tls.map treeLeaf.orderedID).Perm (List.range t.tls.length) →
      del.Subperm (t.tls.map treeLeaf.datum) →
      ∃ t2, t.DeleteAndReconstruct H del = some t2 ∧
        List.Sorted leafDatumLe t2.tls ∧
        (t2.tls.map treeLeaf.orderedID).Perm (List.range t2.tls.length)) := by
  refine ⟨?_, ?_, ?_⟩
  · intro avail data t ht
    obtain ⟨hs, -, -, hid, hlen⟩ := NewTree_tls_spec ht
    rw [← hlen] at hid
    exact ⟨hs, hid⟩
  · intro t data hs hid
    by_cases hd0 : data.length = 0
    · simp only [MerkleTree.AppendAndReconstruct, if_pos hd0]
      exact ⟨hs, hid⟩
    · simp only [MerkleTree.AppendAndReconstruct, if_neg hd0]
      refine ⟨sortLeavesByDatum_sorted _, ?_⟩
      have hp : (appendTreeLeaves H t.tls data).Perm (t.tls ++ makeLeaves H t.tls.length data) :=
        sortLeavesByDatum_perm _
      have hlen : (appendTreeLeaves H t.tls data).length = t.tls.length + data.length := by
        rw [hp.length_eq, List.length_append, makeLeaves_length]
      have hidp := hp.map treeLeaf.orderedID
      rw [List.map_append, makeLeaves_map_orderedID] at hidp
      have h1 : ((t.tls.map treeLeaf.orderedID) ++ List.range' t.tls.length data.length).Perm
          ((List.range t.tls.length) ++ List.range' t.tls.length data.length) :=
        hid.append_right _
      have h2 : (List.range t.tls.length) ++ List.range' t.tls.length data.length =
          List.range (t.tls.length + data.length) := by
        rw [List.range_eq_range', List.range_eq_range']
        have h3 := List.range'_append_1 0 t.tls.length data.length
        rw [Nat.zero_add] at h3
        rw [h3, Nat.add_comm data.length t.tls.length]
      rw [h2] at h1
      show ((appendTreeLeaves H t.tls data).map treeLeaf.orderedID).Perm
        (List.range (appendTreeLeaves H t.tls data).length)
      rw [hlen]
      exact hidp.trans h1
  · intro t del hs hid hsub
    obtain ⟨newTls, hdel, hs2, hlen2, hperm2, hprov2, hid2⟩ := deleteTreeLeaves_spec t.tls del hs hsub
    by_cases hd0 : del.length = 0
    · simp only [MerkleTree.DeleteAndReconstruct, if_pos hd0]
      exact ⟨t, rfl, hs, hid⟩
    · refine ⟨MerkleTree.mk (constructMerkleNodes H newTls) newTls, ?_, hs2, hid2⟩
      simp only [MerkleTree.DeleteAndReconstruct, if_neg hd0]
      rw [hdel]
      rfl

/-- Witness for C10 at a concrete two-leaf tree: built from items 2, 1,
then appending item 3, then deleting the present item 1. -/
theorem claim_C10_leaf_invariant_witness :
    (List.Sorted leafDatumLe (MerkleTree.mk [[[0, 0, 1, 0, 2]]]
        [⟨[0, 1], [1], 1⟩, ⟨[0, 2], [2], 0⟩]).tls ∧
      (((MerkleTree.mk [[[0, 0, 1, 0, 2]]] [⟨[0, 1], [1], 1⟩, ⟨[0, 2], [2], 0⟩]).tls.map
          treeLeaf.orderedID).Perm
        (List.range (MerkleTree.mk [[[0, 0, 1, 0, 2]]]
          [⟨[0, 1], [1], 1⟩, ⟨[0, 2], [2], 0⟩]).tls.length))) ∧
    (List.Sorted leafDatumLe ((MerkleTree.mk [[[0, 0, 1, 0, 2]]]
        [⟨[0, 1], [1], 1⟩, ⟨[0, 2], [2], 0⟩]).AppendAndReconstruct H0 [[3]]).tls ∧
      ((((MerkleTree.mk [[[0, 0, 1, 0, 2]]]
          [⟨[0, 1], [1], 1⟩, ⟨[0, 2], [2], 0⟩]).AppendAndReconstruct H0 [[3]]).tls.map
          treeLeaf.orderedID).Perm
        (List.range ((MerkleTree.mk [[[0, 0, 1, 0, 2]]]
          [⟨[0, 1], [1], 1⟩, ⟨[0, 2], [2], 0⟩]).AppendAndReconstruct H0 [[3]]).tls.length))) ∧
    (∃ t2, (MerkleTree.mk [[[0, 0, 1, 0, 2]]]
        [⟨[0, 1], [1], 1⟩, ⟨[0, 2], [2], 0⟩]).DeleteAndReconstruct H0 [[1]] = some t2 ∧
      List.Sorted leafDatumLe t2.tls ∧
      (t2.tls.map treeLeaf.orderedID).Perm (List.range t2.tls.length)) := by
  refine ⟨?_, ?_, ?_⟩
  · exact (claim_C10_leaf_invariant H0).1 true [[2], [1]] _ rfl
  · exact (claim_C10_leaf_invariant H0).2.1 _ [[3]] (by decide) (by decide)
  · exact (claim_C10_leaf_invariant H0).2.2 _ [[1]] (by decide) (by decide)
      ⟨[[1]], List.Perm.refl _, by decide⟩

/-- C7: appending two items absent from the tree and then deleting them
again restores the node rows and the root byte-for-byte (orderedIDs may be
renumbered, but digests depend only on the sorted datum column). -/
theorem claim_C7_append_delete_roundtrip (H : GoBytes → GoBytes) (data : List GoBytes)
    (A B : GoBytes) (hA : A ∉ data) (hB : B ∉ data) (t : MerkleTree)
    (h : NewTree true H data = .ok t) :
    ∃ t2, (t.AppendAndReconstruct H [A, B]).DeleteAndReconstruct H [A, B] = some t2 ∧
      t2.mns = t.mns ∧ t2.MerkleRoot = t.MerkleRoot := by
  obtain ⟨hs, hdig, hdperm, -, hlen⟩ := NewTree_tls_spec h
  obtain ⟨-, -, -, hmns⟩ := NewTree_ok h
  set t1 := t.AppendAndReconstruct H [A, B] with ht1
  have ht1tls : t1.tls = appendTreeLeaves H t.tls [A, B] := by
    rw [ht1]
    simp only [MerkleTree.AppendAndReconstruct]
    rw [if_neg (by simp)]
  have hp1 : t1.tls.Perm (t.tls ++ makeLeaves H t.tls.length [A, B]) := by
    rw [ht1tls]; exact sortLeavesByDatum_perm _
  have hs1 : List.Sorted leafDatumLe t1.tls := by
    rw [ht1tls]; exact sortLeavesByDatum_sorted _
  have hdig1 : ∀ l ∈ t1.tls, l.digest = H l.datum := by
    intro l hl
    rcases List.mem_append.mp (hp1.mem_iff.mp hl) with hl' | hl'
    · exact hdig l hl'
    · exact makeLeaves_digest H _ _ l hl'
  have hdat1 : (t1.tls.map treeLeaf.datum).Perm (data ++ [A, B]) := by
    have h1 := hp1.map treeLeaf.datum
    rw [List.map_append, makeLeaves_map_datum] at h1
    exact h1.trans (hdperm.append_right [A, B])
  have hsub : [A, B].Subperm (t1.tls.map treeLeaf.datum) :=
    ((List.sublist_append_right data [A, B]).subperm).trans hdat1.symm.subperm
  obtain ⟨newTls, hdel, hs2, hlen2, hperm2, hprov2, -⟩ :=
    deleteTreeLeaves_spec t1.tls [A, B] hs1 hsub
  have hdat2 : (newTls.map treeLeaf.datum).Perm data := by
    have h3 : ([A, B] ++ newTls.map treeLeaf.datum).Perm ([A, B] ++ data) :=
      hperm2.trans (hdat1.trans List.perm_append_comm)
    exact (List.perm_append_left_iff [A, B]).mp h3
  have hdatum_eq : newTls.map treeLeaf.datum = t.tls.map treeLeaf.datum :=
    List.eq_of_perm_of_sorted (hdat2.trans hdperm.symm) (sorted_map_datum hs2) (sorted_map_datum hs)
  have hdig2 : ∀ l ∈ newTls, l.digest = H l.datum := by
    intro l hl
    obtain ⟨l0, hl0, hd1, hd2⟩ := hprov2 l hl
    rw [hd2, hdig1 l0 hl0, hd1]
  have hdigs_eq : newTls.map treeLeaf.digest = t.tls.map treeLeaf.digest := by
    rw [map_digest_eq H newTls hdig2, map_digest_eq H t.tls hdig, hdatum_eq]
  have hlen_eq : newTls.length = t.tls.length := by
    have h4 := congrArg List.length hdatum_eq
    simpa using h4
  have hmns_eq : constructMerkleNodes H newTls = t.mns := by
    rw [hmns]
    simp only [constructMerkleNodes, hdigs_eq, hlen_eq]
  refine ⟨MerkleTree.mk (constructMerkleNodes H newTls) newTls, ?_, hmns_eq, ?_⟩
  · simp only [MerkleTree.DeleteAndReconstruct]
    rw [if_neg (by simp), hdel]
    rfl
  · simp only [MerkleTree.MerkleRoot]
    rw [hmns_eq]

/-- Witness for C7 at the concrete tree over items 1, 2 with the absent
items 7 and 4 appended and deleted. -/
theorem claim_C7_append_delete_roundtrip_witness :
    ∃ t2, ((MerkleTree.mk [[[0, 0, 1, 0, 2]]]
        [⟨[0, 1], [1], 0⟩, ⟨[0, 2], [2], 1⟩]).AppendAndReconstruct H0
          [[7], [4]]).DeleteAndReconstruct H0 [[7], [4]] = some t2 ∧
      t2.mns = (MerkleTree.mk [[[0, 0, 1, 0, 2]]] [⟨[0, 1], [1], 0⟩, ⟨[0, 2], [2], 1⟩]).mns ∧
      t2.MerkleRoot = (MerkleTree.mk [[[0, 0, 1, 0, 2]]]
        [⟨[0, 1], [1], 0⟩, ⟨[0, 2], [2], 1⟩]).MerkleRoot :=
  claim_C7_append_delete_roundtrip H0 [[1], [2]] [7] [4] (by decide) (by decide) _ rfl

/-- During the walk, a corrupted parent digest is detected: with the parent
row's node j replaced by a value different from the recomputed pair hash,
the comparison at index idx (whose parent is j) fails. -/
theorem climbStep_corrupt (H : GoBytes → GoBytes) (children : List GoBytes) (s : Nat)
    (idx j : Nat) (d : GoBytes) (hidx : idx < children.length)
    (hs : s = nextRowCount children.length) (hj : idx / 2 = j)
    (hd : d ≠ (hashRow H children s).getD j []) :
    climbStep H children ((hashRow H children s).set j d) idx (children.getD idx []) =
      some (false, j, d) := by
  subst hj
  have hhalf : idx / 2 < s := by rw [hs, nextRowCount_eq]; omega
  have hget : ((hashRow H children s).set (idx / 2) d)[idx / 2]? = some d :=
    List.getElem?_set_self (by rw [hashRow_length]; exact hhalf)
  have horig : (hashRow H children s).getD (idx / 2) [] =
      H (children.getD (2 * (idx / 2)) [] ++ children.getD (2 * (idx / 2) + 1) []) := by
    rw [List.getD_eq_getElem?_getD, hashRow_get H children s hhalf]
    rfl
  by_cases hpar : idx % 2 = 0
  · have h2 : 2 * (idx / 2) = idx := by omega
    rw [h2] at horig
    simp only [climbStep, if_pos hpar]
    rw [hget]
    have hsib : (if idx < children.length - 1 then children.getD (idx + 1) [] else []) =
        children.getD (idx + 1) [] := by
      by_cases hlast : idx < children.length - 1
      · rw [if_pos hlast]
      · rw [if_neg hlast, List.getD_eq_default]
        omega
    rw [hsib]
    have hne : decide (d = H (children.getD idx [] ++ children.getD (idx + 1) [])) = false := by
      rw [decide_eq_false_iff_not]
      rw [horig] at hd
      exact hd
    show some (decide (d = H (children.getD idx [] ++ children.getD (idx + 1) [])), idx / 2, d) =
      some (false, idx / 2, d)
    rw [hne]
  · have hodd : idx % 2 = 1 := by omega
    have h3 : 2 * (idx / 2) + 1 = idx := by omega
    have h2 : 2 * (idx / 2) = idx - 1 := by omega
    rw [h3, h2] at horig
    have hp2 : (idx - 1) / 2 = idx / 2 := by omega
    have hlt : idx - 1 < children.length := by omega
    simp only [climbStep, if_neg hpar]
    have hsib : children[idx - 1]? = some (children.getD (idx - 1) []) := by
      simp [List.getD_eq_getElem?_getD, List.getElem?_eq_getElem hlt]
    rw [hsib, hp2, hget]
    have hne : decide (d = H (children.getD (idx - 1) [] ++ children.getD idx [])) = false := by
      rw [decide_eq_false_iff_not]
      rw [horig] at hd
      exact hd
    show some (decide (d = H (children.getD (idx - 1) [] ++ children.getD idx [])), idx / 2, d) =
      some (false, idx / 2, d)
    rw [hne]

/-- Climbing a stack of correctly built rows in which the single node at
position (lvl, j) has been replaced by a different digest returns false for
every starting index whose ancestor at that level is j: all steps below the
corruption match, and the comparison at the corrupted node fails. -/
theorem climb_corrupt (H : GoBytes → GoBytes) :
    ∀ (lvl : Nat) (sizes : List Nat) (children : List GoBytes) (idx j : Nat) (d : GoBytes)
      (row : List GoBytes),
      sizesOK children.length sizes → idx < children.length →
      (rowsUp H children sizes)[lvl]? = some row → j < row.length →
      d ≠ row.getD j [] → idx / 2 ^ (lvl + 1) = j →
      climb H children ((rowsUp H children sizes).set lvl (row.set j d)) idx
        (children.getD idx []) = some false := by
  intro lvl
  induction lvl with
  | zero =>
    intro sizes children idx j d row hok hidx hrow hj hd hpath
    cases sizes with
    | nil => cases hrow
    | cons s rest =>
      obtain ⟨h1, hs, hrest⟩ := hok
      have hrow' : row = hashRow H children s := by
        simp only [rowsUp, List.getElem?_cons_zero] at hrow
        exact (Option.some.inj hrow).symm
      have hpath' : idx / 2 = j := by simpa using hpath
      subst hrow'
      simp only [rowsUp, List.set_cons_zero, climb]
      rw [climbStep_corrupt H children s idx j d hidx hs hpath' hd]
      rfl
  | succ lvl ih =>
    intro sizes children idx j d row hok hidx hrow hj hd hpath
    cases sizes with
    | nil => cases hrow
    | cons s rest =>
      obtain ⟨h1, hs, hrest⟩ := hok
      have hrow2 : (rowsUp H (hashRow H children s) rest)[lvl]? = some row := by
        simpa [rowsUp] using hrow
      simp only [rowsUp, List.set_cons_succ, climb]
      rw [climbStep_built H children s idx hidx hs]
      show climb H (hashRow H children s)
          ((rowsUp H (hashRow H children s) rest).set lvl (row.set j d)) (idx / 2)
          ((hashRow H children s).getD (idx / 2) []) = some false
      apply ih rest (hashRow H children s) (idx / 2) j d row
      · rw [hashRow_length]; exact hrest
      · rw [hashRow_length, hs, nextRowCount_eq]; omega
      · exact hrow2
      · exact hj
      · exact hd
      · rw [Nat.div_div_eq_div_mul]
        have hmul : 2 * 2 ^ (lvl + 1) = 2 ^ (lvl + 1 + 1) := by ring
        rw [hmul]
        exact hpath

/-- Setting position k of a list and reversing is reversing and setting the
mirrored position. -/
theorem reverse_set {α : Type} (l : List α) (k : Nat) (x : α) (hk : k < l.length) :
    (l.set k x).reverse = l.reverse.set (l.length - 1 - k) x := by
  apply List.ext_getElem?
  intro n
  by_cases hn : n < l.length
  · rw [List.getElem?_reverse (by rw [List.length_set]; exact hn)]
    rw [List.length_set]
    by_cases heq : l.length - 1 - n = k
    · rw [heq, List.getElem?_set_self hk]
      have hn' : n = l.length - 1 - k := by omega
      rw [hn', List.getElem?_set_self (by rw [List.length_reverse]; omega)]
    · rw [List.getElem?_set_ne (fun hc => heq hc.symm)]
      have hne2 : l.length - 1 - k ≠ n := by omega
      rw [List.getElem?_set_ne hne2]
      rw [List.getElem?_reverse hn]
  · have h1 : (l.set k x).reverse.length ≤ n := by
      rw [List.length_reverse, List.length_set]; omega
    have h2 : (l.reverse.set (l.length - 1 - k) x).length ≤ n := by
      rw [List.length_set, List.length_reverse]; omega
    rw [List.getElem?_eq_none h1, List.getElem?_eq_none h2]

/-- A walk step never reads the sibling row at the current index itself, so
replacing that entry leaves the step unchanged. -/
theorem climbStep_sib_set (H : GoBytes → GoBytes) (sibRow parentRow : List GoBytes)
    (idx : Nat) (cur d : GoBytes) :
    climbStep H (sibRow.set idx d) parentRow idx cur = climbStep H sibRow parentRow idx cur := by
  by_cases hpar : idx % 2 = 0
  · simp only [climbStep, if_pos hpar, List.length_set]
    have hgd : (sibRow.set idx d).getD (idx + 1) [] = sibRow.getD (idx + 1) [] := by
      rw [List.getD_eq_getElem?_getD, List.getD_eq_getElem?_getD,
        List.getElem?_set_ne (by omega)]
    rw [hgd]
  · have hodd : idx % 2 = 1 := by omega
    simp only [climbStep, if_neg hpar]
    rw [List.getElem?_set_ne (by omega)]

/-- The whole walk never reads the starting row at the starting index, so
replacing that entry leaves the walk unchanged. -/
theorem climb_sib_set (H : GoBytes → GoBytes) (sibRow : List GoBytes)
    (rows : List (List GoBytes)) (idx : Nat) (cur d : GoBytes) :
    climb H (sibRow.set idx d) rows idx cur = climb H sibRow rows idx cur := by
  cases rows with
  | nil => rfl
  | cons parentRow rest =>
    simp only [climb, climbStep_sib_set]

/-- Replacing the cached digest of the very leaf being verified changes
nothing: verification recomputes that digest from the stored datum and never
reads the cached field of the leaf under verification. -/
theorem verify_corruptLeaf (t : MerkleTree) (H : GoBytes → GoBytes) (i : Nat) (d : GoBytes)
    (hi : i < t.tls.length) :
    (corruptLeafDigest t i d).verify H i = t.verify H i := by
  have hgd : t.tls.getD i zeroLeaf = t.tls[i] := by
    rw [getD_eq_get t.tls zeroLeaf i hi]
    simp
  have hset : (t.tls.set i { t.tls.getD i zeroLeaf with digest := d })[i]? =
      some { t.tls.getD i zeroLeaf with digest := d } :=
    List.getElem?_set_self hi
  have horig : t.tls[i]? = some t.tls[i] := List.getElem?_eq_getElem hi
  simp only [MerkleTree.verify, corruptLeafDigest]
  rw [hset, horig]
  cases hrev : t.mns.reverse with
  | nil => rfl
  | cons r0 rest =>
    show (climb H ((t.tls.set i { t.tls.getD i zeroLeaf with digest := d }).map treeLeaf.digest)
        (r0 :: rest) i (H ({ t.tls.getD i zeroLeaf with digest := d }).datum)).map
          (fun b => (b, none)) =
      (climb H (t.tls.map treeLeaf.digest) (r0 :: rest) i (H t.tls[i].datum)).map
        (fun b => (b, none))
    have hdat : ({ t.tls.getD i zeroLeaf with digest := d }).datum = t.tls[i].datum := by
      rw [hgd]
    rw [List.map_set, hdat, climb_sib_set]

/-- Replacing merkle node mns[g][j] with any different digest makes path
verification fail for every leaf whose path to the root crosses that node
(the leaves i with i / 2^(rows - g) = j, rows being the node-row count). -/
theorem verify_corruptNode (t : MerkleTree) (H : GoBytes → GoBytes)
    (hmns : t.mns = constructMerkleNodes H t.tls)
    (hdig : ∀ l ∈ t.tls, l.digest = H l.datum)
    (g j : Nat) (d : GoBytes) (i : Nat)
    (hg : g < t.mns.length) (hjb : j < (t.mns.getD g []).length)
    (hd : d ≠ (t.mns.getD g []).getD j []) (hi : i < t.tls.length)
    (hpath : i / 2 ^ (t.mns.length - g) = j) :
    (corruptMerkleNode t g j d).verify H i = some (false, none) := by
  set children := t.tls.map treeLeaf.digest with hch
  set sizes := merkleRowCounts t.tls.length with hsz
  have hchlen : children.length = t.tls.length := by
    rw [hch, List.length_map]
  have hok : sizesOK children.length sizes := by
    rw [hchlen, hsz]
    exact merkleRowCounts_sizesOK t.tls.length
  have hrev : t.mns.reverse = rowsUp H children sizes := by
    rw [hmns]
    simp [constructMerkleNodes, hch, hsz]
  have hmns2 : t.mns = (rowsUp H children sizes).reverse := by
    rw [← hrev, List.reverse_reverse]
  have hrowslen : (rowsUp H children sizes).length = t.mns.length := by
    rw [← hrev, List.length_reverse]
  set lvl := t.mns.length - 1 - g with hlvl
  have hlvl_lt : lvl < (rowsUp H children sizes).length := by
    rw [hrowslen]; omega
  have hmg : t.mns[g]? = (rowsUp H children sizes)[lvl]? := by
    rw [hmns2, List.getElem?_reverse (by rw [hrowslen]; exact hg), hrowslen]
  have hrowg : (rowsUp H children sizes)[lvl]? = some (t.mns.getD g []) := by
    rw [← hmg, List.getD_eq_getElem?_getD, List.getElem?_eq_getElem hg]
    rfl
  have hrevset : (t.mns.set g ((t.mns.getD g []).set j d)).reverse =
      (rowsUp H children sizes).set lvl ((t.mns.getD g []).set j d) := by
    rw [reverse_set t.mns g _ hg, hrev]
  have hcur : children.getD i [] = H (t.tls[i].datum) := by
    rw [hch, getD_eq_get (t.tls.map treeLeaf.digest) [] i (by rw [List.length_map]; exact hi)]
    simp only [List.get_eq_getElem, List.getElem_map]
    exact hdig t.tls[i] (List.getElem_mem hi)
  have hclimb := climb_corrupt H lvl sizes children i j d (t.mns.getD g [])
      hok (by rw [hchlen]; exact hi) hrowg hjb hd
      (by
        have hexp : lvl + 1 = t.mns.length - g := by omega
        rw [hexp]
        exact hpath)
  have horig : t.tls[i]? = some t.tls[i] := List.getElem?_eq_getElem hi
  simp only [MerkleTree.verify, corruptMerkleNode]
  rw [horig, hrevset]
  cases hsplit : ((rowsUp H children sizes).set lvl ((t.mns.getD g []).set j d)) with
  | nil =>
    exfalso
    have hlen0 := congrArg List.length hsplit
    rw [List.length_set, List.length_nil] at hlen0
    omega
  | cons r0 rest =>
    show (climb H (t.tls.map treeLeaf.digest) (r0 :: rest) i (H t.tls[i].datum)).map
        (fun b => (b, none)) = some (false, none)
    rw [← hsplit, ← hch, ← hcur, hclimb]
    rfl

/-- C5 as amended: on a built tree with at least two leaves, replacing the
cached digest of the leaf being verified (its datum kept) still verifies as
(true, nil), because verification recomputes the leaf digest from the
stored datum; while replacing any internal node digest mns[g][j] with a
different value makes verification return false for every leaf whose path
to the root crosses that node, namely every leaf index i with
i / 2^(rows - g) = j. (As stated the claim also covers one-leaf trees,
where verification panics instead of returning true; see the
counterexample.) -/
theorem claim_C5_tamper_detection (H : GoBytes → GoBytes) (data : List GoBytes)
    (t : MerkleTree) (h : NewTree true H data = .ok t) :
    (∀ i d, i < t.tls.length → 2 ≤ t.tls.length →
      (corruptLeafDigest t i d).verify H i = some (true, none)) ∧
    (∀ g j d i, g < t.mns.length → j < (t.mns.getD g []).length →
      d ≠ (t.mns.getD g []).getD j [] → i < t.tls.length →
      i / 2 ^ (t.mns.length - g) = j →
      (corruptMerkleNode t g j d).verify H i = some (false, none)) := by
  obtain ⟨hs, hdig, -, -, -⟩ := NewTree_tls_spec h
  obtain ⟨-, -, -, hmns⟩ := NewTree_ok h
  constructor
  · intro i d hi hlen
    rw [verify_corruptLeaf t H i d hi]
    exact verify_built t H hmns hdig hlen i hi
  · intro g j d i hg hjb hd hi hpath
    exact verify_corruptNode t H hmns hdig g j d i hg hjb hd hi hpath

/-- Witness for C5 on the three-leaf tree over items 1, 2, 3: corrupting
the first leaf's cached digest still verifies that leaf; corrupting node
mns[1][1] makes leaf 2 (whose path crosses it) fail. -/
theorem claim_C5_tamper_detection_witness :
    (corruptLeafDigest (MerkleTree.mk [[[0, 0, 0, 1, 0, 2, 0, 0, 3]], [[0, 0, 1, 0, 2], [0, 0, 3]]]
        [⟨[0, 1], [1], 0⟩, ⟨[0, 2], [2], 1⟩, ⟨[0, 3], [3], 2⟩]) 0 [9, 9]).verify H0 0 =
      some (true, none) ∧
    (corruptMerkleNode (MerkleTree.mk [[[0, 0, 0, 1, 0, 2, 0, 0, 3]], [[0, 0, 1, 0, 2], [0, 0, 3]]]
        [⟨[0, 1], [1], 0⟩, ⟨[0, 2], [2], 1⟩, ⟨[0, 3], [3], 2⟩]) 1 1 [7]).verify H0 2 =
      some (false, none) := by
  refine ⟨?_, ?_⟩
  · exact (claim_C5_tamper_detection H0 [[1], [2], [3]] _ rfl).1 0 [9, 9]
      (by decide) (by decide)
  · exact (claim_C5_tamper_detection H0 [[1], [2], [3]] _ rfl).2 1 1 [7] 2
      (by decide) (by decide) (by decide) (by decide) (by decide)

/-- C5 counterexample: on the one-leaf tree, flipping a bit in the leaf's
cached digest and verifying that leaf panics (none) instead of yielding
true, because verification reads the empty node rows out of range. -/
theorem claim_C5_counterexample :
    NewTree true H0 [[8]] = .ok (MerkleTree.mk [] [⟨[0, 8], [8], 0⟩]) ∧
    (corruptLeafDigest (MerkleTree.mk [] [⟨[0, 8], [8], 0⟩]) 0 [1, 8]).verify H0 0 = none ∧
    (corruptLeafDigest (MerkleTree.mk [] [⟨[0, 8], [8], 0⟩]) 0 [1, 8]).verify H0 0 ≠
      some (true, none) :=
  ⟨rfl, rfl, by decide⟩
